import Mathlib

/-!
# Verification of the claude-context synchronization core

This file gives a shallow embedding, in Lean, of the synchronization core of
the claude-context repository and settles a list of claims about it.

Embedded code (translated from the TypeScript source):

* `FileSynchronizer` (hashing, ignore matching, directory scanning, Merkle
  summary construction, change detection, single-file update, snapshot
  save/load);
* `ToolHandlers.quickSyncCheck` and the extension-filter validation of
  `ToolHandlers.handleSearchCode`;
* `MilvusVectorDatabase.atomicFileUpdate`.

Modelling conventions:

* Relative paths are represented as lists of path components
  (`List String`); the TypeScript code stores them as strings joined with
  the separator.  Component lists carry the same information for
  well-formed paths (components nonempty and free of separators), and
  `joinPath` recovers the joined string where the code manipulates it
  textually (glob matching, Merkle node payloads).
* JavaScript `Map` objects are modelled as insertion-ordered association
  lists; `jsMapSet` updates an existing key in place (preserving its
  position) and appends a fresh key at the end, exactly as JavaScript
  `Map.prototype.set` does.  Iteration order of `Map.prototype.keys` is
  insertion order, i.e. list order.
* SHA-256 is abstracted as a function parameter `sha : List Nat → String`;
  theorems that need collision freedom take injectivity as a hypothesis.
* `fs.readFile(p, 'utf-8')` followed by `hash.update(string)` is modelled
  by `utf8RoundTrip`: decode the raw bytes as UTF-8 (invalid sequences
  become U+FFFD, as in Node), then re-encode the resulting scalar values.
-/

/-! ## JavaScript `Map` as an insertion-ordered association list -/

/-- Lookup in a JavaScript `Map` (`Map.prototype.get`). -/
def jsMapGet {α β : Type} [DecidableEq α] : List (α × β) → α → Option β
  | [], _ => none
  | (k, v) :: rest, key => if k = key then some v else jsMapGet rest key

/-- `Map.prototype.set`: update an existing key in place, otherwise append. -/
def jsMapSet {α β : Type} [DecidableEq α] : List (α × β) → α → β → List (α × β)
  | [], key, val => [(key, val)]
  | (k, v) :: rest, key, val =>
      if k = key then (k, val) :: rest else (k, v) :: jsMapSet rest key val

/-- `Map.prototype.delete`: remove the binding for a key, if present. -/
def jsMapDelete {α β : Type} [DecidableEq α] : List (α × β) → α → List (α × β)
  | [], _ => []
  | (k, v) :: rest, key =>
      if k = key then rest else (k, v) :: jsMapDelete rest key

/-- `Map.prototype.has`. -/
def jsMapHas {α β : Type} [DecidableEq α] (m : List (α × β)) (key : α) : Bool :=
  (jsMapGet m key).isSome

theorem jsMapGet_set_self {α β : Type} [DecidableEq α]
    (m : List (α × β)) (k : α) (v : β) : jsMapGet (jsMapSet m k v) k = some v := by
  induction m with
  | nil => simp [jsMapSet, jsMapGet]
  | cons hd tl ih =>
      obtain ⟨k', v'⟩ := hd
      by_cases h : k' = k <;> simp [jsMapSet, jsMapGet, h, ih]

theorem jsMapGet_set_other {α β : Type} [DecidableEq α]
    (m : List (α × β)) (k k' : α) (v : β) (hne : k ≠ k') :
    jsMapGet (jsMapSet m k v) k' = jsMapGet m k' := by
  induction m with
  | nil => simp [jsMapSet, jsMapGet, hne]
  | cons hd tl ih =>
      obtain ⟨a, b⟩ := hd
      by_cases h : a = k
      · subst h; simp [jsMapSet, jsMapGet, hne]
      · simp [jsMapSet, jsMapGet, h, ih]

theorem jsMapGet_eq_none_of_not_mem {α β : Type} [DecidableEq α]
    (m : List (α × β)) (k : α) (h : k ∉ m.map Prod.fst) : jsMapGet m k = none := by
  induction m with
  | nil => simp [jsMapGet]
  | cons hd tl ih =>
      obtain ⟨a, b⟩ := hd
      simp only [List.map_cons, List.mem_cons] at h
      push_neg at h
      simp [jsMapGet, Ne.symm h.1, ih h.2]

theorem jsMapGet_delete_self {α β : Type} [DecidableEq α]
    (m : List (α × β)) (k : α) (hnd : (m.map Prod.fst).Nodup) :
    jsMapGet (jsMapDelete m k) k = none := by
  induction m with
  | nil => simp [jsMapDelete, jsMapGet]
  | cons hd tl ih =>
      obtain ⟨a, b⟩ := hd
      simp only [List.map_cons, List.nodup_cons] at hnd
      by_cases h : a = k
      · subst h
        simp only [jsMapDelete, if_pos rfl]
        exact jsMapGet_eq_none_of_not_mem tl a hnd.1
      · simp [jsMapDelete, jsMapGet, h, ih hnd.2]

theorem jsMapGet_delete_other {α β : Type} [DecidableEq α]
    (m : List (α × β)) (k k' : α) (hne : k ≠ k') :
    jsMapGet (jsMapDelete m k) k' = jsMapGet m k' := by
  induction m with
  | nil => simp [jsMapDelete]
  | cons hd tl ih =>
      obtain ⟨a, b⟩ := hd
      by_cases h : a = k
      · subst h; simp [jsMapDelete, jsMapGet, hne]
      · simp [jsMapDelete, jsMapGet, h, ih]

/-! ## Paths

Relative paths are component lists.  `joinPath` is the POSIX join used
wherever the TypeScript code handles the path as a single string. -/

/-- Join path components with the POSIX separator. -/
def joinPath : List String → String
  | [] => ""
  | [c] => c
  | c :: rest => c ++ "/" ++ joinPath rest

/-- A well-formed component: nonempty and free of the separator. -/
def goodComp (c : String) : Prop := c ≠ "" ∧ ¬ c.contains '/'

instance (c : String) : Decidable (goodComp c) := by
  unfold goodComp; infer_instance

/-! ## Glob matching

`FileSynchronizer.simpleGlobMatch` escapes every regex metacharacter except
`*`, turns `*` into `.*`, anchors the pattern, and tests the text against
the resulting regular expression.  `globChars` below is the direct
semantics of that anchored regular expression: every non-`*` pattern
character matches itself, `*` matches any (possibly empty) character
sequence. -/

def globCharsF : Nat → List Char → List Char → Bool
  | 0, _, _ => false
  | _ + 1, [], [] => true
  | _ + 1, [], _ :: _ => false
  | f + 1, '*' :: ps, [] => globCharsF f ps []
  | f + 1, '*' :: ps, t :: ts => globCharsF f ps (t :: ts) || globCharsF f ('*' :: ps) ts
  | _ + 1, _ :: _, [] => false
  | f + 1, p :: ps, t :: ts => p == t && globCharsF f ps ts

/-- Every recursive step of `globCharsF` shortens the combined input, so
this fuel is always sufficient. -/
def globChars (ps ts : List Char) : Bool :=
  globCharsF (ps.length + ts.length + 1) ps ts

/-- `simpleGlobMatch(text, pattern)`: JavaScript's empty string is falsy, so
an empty text or pattern short-circuits to `false`. -/
def simpleGlobMatch (text pat : String) : Bool :=
  if text = "" ∨ pat = "" then false
  else globChars pat.toList text.toList

/-! ## Ignore matching (`FileSynchronizer.shouldIgnore` / `matchPattern`)

The path argument is a component list; the TypeScript code receives the
joined string and immediately splits it (`split(path.sep)`,
`split('/')`), so for well-formed paths the two representations agree:
`normalizedPath` is `joinPath comps`, `normalizedPathParts` is `comps`,
`path.basename` is the last component. -/

/-- `String.startsWith('.')`, computed on the character list. -/
def strStartsWithDot (s : String) : Bool :=
  match s.toList with
  | c :: _ => c == '.'
  | [] => false

/-- `String.endsWith('/')`, computed on the character list. -/
def strEndsWithSlash (s : String) : Bool :=
  match s.toList.getLast? with
  | some c => c == '/'
  | none => false

/-- `String.includes(c)`, computed on the character list. -/
def strContainsChar (s : String) (c : Char) : Bool := s.toList.contains c

/-- `slice(0, -1)`: drop the last character. -/
def strDropLast (s : String) : String := String.mk s.toList.dropLast

/-- Strip leading and trailing separators, as the regex
`replace(^\/+|\/+$, '')` does. -/
def stripSlashes (s : String) : String :=
  let l := s.toList.dropWhile (fun c => c == '/')
  String.mk ((l.reverse.dropWhile (fun c => c == '/')).reverse)

/-- `FileSynchronizer.matchPattern(filePath, pattern, isDirectory)`.
Note that for directory patterns the code derives `dirPattern` from
`cleanPattern.slice(0, -1)`, i.e. it drops a further character after the
trailing slash has already been stripped. -/
def matchPattern (comps : List String) (pattern : String) (isDirectory : Bool) : Bool :=
  let cleanPath := joinPath comps
  let cleanPattern := stripSlashes pattern
  if cleanPath = "" ∨ cleanPattern = "" then false
  else if strEndsWithSlash pattern then
    if !isDirectory then false
    else
      let dirPattern := strDropLast cleanPattern
      simpleGlobMatch cleanPath dirPattern ||
        comps.any (fun part => simpleGlobMatch part dirPattern)
  else if strContainsChar cleanPattern '/' then
    simpleGlobMatch cleanPath cleanPattern
  else
    simpleGlobMatch (comps.getLastD "") cleanPattern

/-- `FileSynchronizer.shouldIgnore(relativePath, isDirectory)`. -/
def shouldIgnore (pats : List String) (comps : List String) (isDirectory : Bool) : Bool :=
  if comps.any (fun part => strStartsWithDot part) then true
  else if pats = [] then false
  else if comps = [] then false
  else if pats.any (fun pattern => matchPattern comps pattern isDirectory) then true
  else
    (List.range comps.length).any (fun i =>
      let partPath := joinPath (comps.take (i + 1))
      let comp := comps.getD i ""
      pats.any (fun pattern =>
        if strEndsWithSlash pattern then
          let dirPattern := strDropLast pattern
          simpleGlobMatch partPath dirPattern || simpleGlobMatch comp dirPattern
        else if strContainsChar pattern '/' then
          simpleGlobMatch partPath pattern
        else
          simpleGlobMatch comp pattern))

/-! ## The UTF-8 read model

`fs.readFile(path, 'utf-8')` decodes the raw bytes as UTF-8, replacing
every invalid sequence by U+FFFD, and `crypto.Hash.update(string)`
re-encodes the JavaScript string as UTF-8 before hashing.  `utf8Decode`
is the WHATWG UTF-8 decoder (byte values to Unicode scalar values, with
replacement), `utf8Encode` the standard encoder. -/

def utf8DecodeF : Nat → List Nat → List Nat
  | 0, _ => []
  | _ + 1, [] => []
  | f + 1, b :: rest =>
    if b < 0x80 then b :: utf8DecodeF f rest
    else if 0xC2 ≤ b ∧ b ≤ 0xDF then
      match rest with
      | [] => [0xFFFD]
      | b2 :: rest2 =>
        if 0x80 ≤ b2 ∧ b2 ≤ 0xBF then
          ((b - 0xC0) * 0x40 + (b2 - 0x80)) :: utf8DecodeF f rest2
        else 0xFFFD :: utf8DecodeF f rest
    else if 0xE0 ≤ b ∧ b ≤ 0xEF then
      match rest with
      | [] => [0xFFFD]
      | b2 :: rest2 =>
        if (if b = 0xE0 then 0xA0 else 0x80) ≤ b2 ∧
            b2 ≤ (if b = 0xED then 0x9F else 0xBF) then
          match rest2 with
          | [] => [0xFFFD, 0xFFFD]
          | b3 :: rest3 =>
            if 0x80 ≤ b3 ∧ b3 ≤ 0xBF then
              ((b - 0xE0) * 0x1000 + (b2 - 0x80) * 0x40 + (b3 - 0x80)) ::
                utf8DecodeF f rest3
            else 0xFFFD :: utf8DecodeF f rest2
        else 0xFFFD :: utf8DecodeF f rest
    else if 0xF0 ≤ b ∧ b ≤ 0xF4 then
      match rest with
      | [] => [0xFFFD]
      | b2 :: rest2 =>
        if (if b = 0xF0 then 0x90 else 0x80) ≤ b2 ∧
            b2 ≤ (if b = 0xF4 then 0x8F else 0xBF) then
          match rest2 with
          | [] => [0xFFFD, 0xFFFD]
          | b3 :: rest3 =>
            if 0x80 ≤ b3 ∧ b3 ≤ 0xBF then
              match rest3 with
              | [] => [0xFFFD, 0xFFFD, 0xFFFD]
              | b4 :: rest4 =>
                if 0x80 ≤ b4 ∧ b4 ≤ 0xBF then
                  ((b - 0xF0) * 0x40000 + (b2 - 0x80) * 0x1000 +
                    (b3 - 0x80) * 0x40 + (b4 - 0x80)) :: utf8DecodeF f rest4
                else 0xFFFD :: utf8DecodeF f rest3
            else 0xFFFD :: utf8DecodeF f rest2
        else 0xFFFD :: utf8DecodeF f rest
    else 0xFFFD :: utf8DecodeF f rest

/-- Every step of `utf8DecodeF` consumes at least one byte, so fuel equal
to the byte count is always sufficient. -/
def utf8Decode (bytes : List Nat) : List Nat := utf8DecodeF bytes.length bytes

/-- Encode one Unicode scalar value as UTF-8 bytes. -/
def utf8Encode1 (cp : Nat) : List Nat :=
  if cp < 0x80 then [cp]
  else if cp < 0x800 then [0xC0 + cp / 0x40, 0x80 + cp % 0x40]
  else if cp < 0x10000 then
    [0xE0 + cp / 0x1000, 0x80 + (cp / 0x40) % 0x40, 0x80 + cp % 0x40]
  else
    [0xF0 + cp / 0x40000, 0x80 + (cp / 0x1000) % 0x40,
      0x80 + (cp / 0x40) % 0x40, 0x80 + cp % 0x40]

def utf8Encode (cps : List Nat) : List Nat := (cps.map utf8Encode1).flatten

/-- The bytes that `crypto.createHash('sha256').update(content)` actually
hashes when `content` was read with `fs.readFile(path, 'utf-8')`. -/
def utf8RoundTrip (bytes : List Nat) : List Nat := utf8Encode (utf8Decode bytes)

example : utf8RoundTrip [0xFF] = [0xEF, 0xBF, 0xBD] := by decide

example : utf8RoundTrip [0x68, 0x69, 0x0A] = [0x68, 0x69, 0x0A] := by decide

example : utf8RoundTrip [0xC3, 0xA9] = [0xC3, 0xA9] := by decide

/-! ## Filesystem model

A directory entry is a regular file (raw bytes plus mtime in milliseconds),
a directory, or anything else (symlink, socket, ...), which the scanner
skips.  Directory listings are ordered, as `fs.readdir` results are. -/

mutual
inductive FsEntry : Type
  | file (bytes : List Nat) (mtime : Nat)
  | dir (children : FsEntries)
  | other
  deriving DecidableEq, Repr
inductive FsEntries : Type
  | nil
  | cons (name : String) (entry : FsEntry) (rest : FsEntries)
  deriving DecidableEq, Repr
end

mutual
def entrySize : FsEntry → Nat
  | .file _ _ => 1
  | .other => 1
  | .dir cs => 1 + entriesSize cs
def entriesSize : FsEntries → Nat
  | .nil => 1
  | .cons _ e r => 1 + entrySize e + entriesSize r
end

/-- JavaScript string comparison (`Array.prototype.sort` default order on
strings), lexicographic on character codes. -/
def jsStrLeChars : List Char → List Char → Bool
  | [], _ => true
  | _ :: _, [] => false
  | a :: as, b :: bs => if a = b then jsStrLeChars as bs else decide (a.toNat < b.toNat)

def jsStrLe (a b : String) : Bool := jsStrLeChars a.toList b.toList

/-- Stable insertion sort, the semantics of `Array.prototype.sort`. -/
def insertSorted {α : Type} (le : α → α → Bool) (x : α) : List α → List α
  | [] => [x]
  | y :: ys => if le x y then x :: y :: ys else y :: insertSorted le x ys

def sortByLe {α : Type} (le : α → α → Bool) (l : List α) : List α :=
  l.foldr (insertSorted le) []

/-! ## Merkle summary

Modelled from the spec: the `MerkleDAG` class (imported from `./merkle`)
is not under `src/`; only its caller `FileSynchronizer` is.  The spec
describes it as a root node whose payload is
`"root:" || concat(hash(p) for p in keys(hashes) in insertion order)`
with one child node per file, and a compare step that short-circuits on
equal roots and otherwise diffs the per-file entries.  Node identifiers
are a digest of the payload, so the model keeps the payloads themselves:
two nodes are equal exactly when their payloads are. -/

structure MerkleDAG where
  rootData : Option String
  childData : List String
  deriving DecidableEq, Repr

def MerkleDAG.mkEmpty : MerkleDAG := ⟨none, []⟩

/-- Modelled from the spec: diff of two Merkle summaries, root compared
first as a short-circuit, then the per-file entries. -/
structure MerkleChanges where
  added : List String
  removed : List String
  modified : List String
  deriving DecidableEq, Repr

def MerkleDAG.compareDags (a b : MerkleDAG) : MerkleChanges :=
  if a.rootData = b.rootData then ⟨[], [], []⟩
  else
    { added := b.childData.filter (fun d => decide (d ∉ a.childData))
      removed := a.childData.filter (fun d => decide (d ∉ b.childData))
      modified := [] }

def MerkleChanges.isEmpty (c : MerkleChanges) : Bool :=
  c.added.isEmpty && c.removed.isEmpty && c.modified.isEmpty

/-- `FileSynchronizer.buildMerkleDAG`: the root payload concatenates the
hash values in *insertion* order (`keys.forEach` over the map); only the
child nodes are added in sorted path order. -/
def buildMerkleDAG (fileHashes : List (List String × String)) : MerkleDAG :=
  let keys := fileHashes.map Prod.fst
  let sortedPaths := sortByLe (fun a b => jsStrLe (joinPath a) (joinPath b)) keys
  let valuesString := String.join (keys.map (fun k => (jsMapGet fileHashes k).getD ""))
  let rootNodeData := "root:" ++ valuesString
  { rootData := some rootNodeData
    childData :=
      sortedPaths.map (fun p => joinPath p ++ ":" ++ (jsMapGet fileHashes p).getD "") }

/-! ## File-level change sets -/

structure Changes where
  added : List (List String)
  removed : List (List String)
  modified : List (List String)
  deriving DecidableEq, Repr

def Changes.mkEmpty : Changes := ⟨[], [], []⟩

/-- `FileSynchronizer.compareStates`: one pass over the new entries
(added / modified, in map order), one pass over the old keys (removed). -/
def compareStates (oldHashes newHashes : List (List String × String)) : Changes :=
  { added := (newHashes.filter (fun e => !(jsMapHas oldHashes e.1))).map Prod.fst
    modified :=
      (newHashes.filter (fun e =>
        match jsMapGet oldHashes e.1 with
        | some h => decide (h ≠ e.2)
        | none => false)).map Prod.fst
    removed := (oldHashes.filter (fun e => !(jsMapHas newHashes e.1))).map Prod.fst }

/-! ## Synchronizer state -/

structure SyncState where
  fileHashes : List (List String × String)
  mtimeCache : List (List String × Nat)
  merkleDAG : MerkleDAG
  lastFullScan : Nat
  deriving DecidableEq, Repr

/-- The data serialized by `saveSnapshot` (§ snapshot JSON handled below). -/
structure SnapshotData where
  fileHashes : List (List String × String)
  merkleDAG : MerkleDAG
  mtimeCache : List (List String × Nat)
  lastFullScan : Nat
  deriving DecidableEq, Repr

def snapshotOf (st : SyncState) : SnapshotData :=
  ⟨st.fileHashes, st.merkleDAG, st.mtimeCache, st.lastFullScan⟩

/-- Synchronizer state together with the on-disk snapshot file. -/
structure SyncWorld where
  st : SyncState
  snapshotFile : Option SnapshotData
  deriving DecidableEq, Repr

def FULL_SCAN_INTERVAL : Nat := 300000

/-! ## Hashing (`hashFile` / `hashFileOptimized`) -/

/-- `FileSynchronizer.hashFile` on a regular file: SHA-256 of the UTF-8
re-encoding of the content read with `fs.readFile(path, 'utf-8')`.  (On a
directory the method throws before reading; the scanner only calls it on
regular files.) -/
def hashFile (sha : List Nat → String) (bytes : List Nat) : String :=
  sha (utf8RoundTrip bytes)

/-- `FileSynchronizer.hashFileOptimized`: reuse the stored hash when the
cached mtime matches (JavaScript truthiness: a missing hash and an empty
hash string are both falsy); otherwise rehash and update the mtime
cache. -/
def hashFileOptimized (sha : List Nat → String) (fileHashes : List (List String × String))
    (mtimeCache : List (List String × Nat)) (relPath : List String)
    (bytes : List Nat) (mtime : Nat) : String × List (List String × Nat) :=
  let cachedMtime := jsMapGet mtimeCache relPath
  let existingHash := (jsMapGet fileHashes relPath).getD ""
  if cachedMtime = some mtime ∧ existingHash ≠ "" then
    (existingHash, mtimeCache)
  else
    (sha (utf8RoundTrip bytes), jsMapSet mtimeCache relPath mtime)

/-! ## Directory scan (`generateFileHashes`) -/

/-- `FileSynchronizer.generateFileHashes`, fuel-indexed (every call site
passes enough fuel; each step consumes one node of the tree).  `store` is
the synchronizer's current `fileHashes` map, read by `hashFileOptimized`;
the scan result is accumulated separately, and the mtime cache is
threaded through (the TypeScript code mutates `this.mtimeCache` in
place).  Merging a subdirectory's map into the parent map via
`Map.set` is concatenation, because paths from disjoint subtrees are
distinct keys. -/
def genEntriesF (sha : List Nat → String) (pats : List String)
    (store : List (List String × String)) :
    Nat → List String → FsEntries → List (List String × Nat) →
      List (List String × String) × List (List String × Nat)
  | 0, _, _, cache => ([], cache)
  | f + 1, relDir, es, cache =>
    match es with
    | .nil => ([], cache)
    | .cons name e rest =>
      let rel := relDir ++ [name]
      let isDir : Bool := match e with | .dir _ => true | _ => false
      if shouldIgnore pats rel isDir then genEntriesF sha pats store f relDir rest cache
      else
        match e with
        | .dir children =>
          if !(shouldIgnore pats rel true) then
            let sub := genEntriesF sha pats store f rel children cache
            let tail := genEntriesF sha pats store f relDir rest sub.2
            (sub.1 ++ tail.1, tail.2)
          else genEntriesF sha pats store f relDir rest cache
        | .file bytes mtime =>
          if !(shouldIgnore pats rel false) then
            let hc := hashFileOptimized sha store cache rel bytes mtime
            let tail := genEntriesF sha pats store f relDir rest hc.2
            ((rel, hc.1) :: tail.1, tail.2)
          else genEntriesF sha pats store f relDir rest cache
        | .other => genEntriesF sha pats store f relDir rest cache

def generateFileHashes (sha : List Nat → String) (pats : List String)
    (store : List (List String × String)) (tree : FsEntries)
    (cache : List (List String × Nat)) :
    List (List String × String) × List (List String × Nat) :=
  genEntriesF sha pats store (entriesSize tree) [] tree cache

/-! ## Change detection -/

/-- `FileSynchronizer.checkForChanges`: full rescan; on a Merkle diff,
commit the new state and save the snapshot; otherwise report no changes.
Either way the mtime cache keeps the updates made during the scan. -/
def checkForChanges (sha : List Nat → String) (pats : List String)
    (tree : FsEntries) (w : SyncWorld) : Changes × SyncWorld :=
  let scanned := generateFileHashes sha pats w.st.fileHashes tree w.st.mtimeCache
  let newFileHashes := scanned.1
  let newMerkleDAG := buildMerkleDAG newFileHashes
  let dagChanges := MerkleDAG.compareDags w.st.merkleDAG newMerkleDAG
  if !dagChanges.isEmpty then
    let fileChanges := compareStates w.st.fileHashes newFileHashes
    let st' : SyncState :=
      { fileHashes := newFileHashes
        mtimeCache := scanned.2
        merkleDAG := newMerkleDAG
        lastFullScan := w.st.lastFullScan }
    (fileChanges, { st := st', snapshotFile := some (snapshotOf st') })
  else
    (Changes.mkEmpty, { w with st := { w.st with mtimeCache := scanned.2 } })

structure QuickScan where
  hasChanges : Bool
  changedPaths : List (List String)
  deriving DecidableEq, Repr

/-- `FileSynchronizer.quickDirectoryScan`, fuel-indexed: flag every
non-ignored file whose current mtime misses or differs from the cached
one. -/
def quickScanF (pats : List String) (cache : List (List String × Nat)) :
    Nat → List String → FsEntries → QuickScan
  | 0, _, _ => ⟨false, []⟩
  | f + 1, relDir, es =>
    match es with
    | .nil => ⟨false, []⟩
    | .cons name e rest =>
      let rel := relDir ++ [name]
      let isDir : Bool := match e with | .dir _ => true | _ => false
      if shouldIgnore pats rel isDir then quickScanF pats cache f relDir rest
      else
        match e with
        | .dir children =>
          let sub := quickScanF pats cache f rel children
          let tail := quickScanF pats cache f relDir rest
          ⟨sub.hasChanges || tail.hasChanges, sub.changedPaths ++ tail.changedPaths⟩
        | .file _ mtime =>
          let tail := quickScanF pats cache f relDir rest
          if jsMapGet cache rel ≠ some mtime then
            ⟨true, rel :: tail.changedPaths⟩
          else tail
        | .other => quickScanF pats cache f relDir rest

def quickDirectoryScan (pats : List String) (cache : List (List String × Nat))
    (tree : FsEntries) : QuickScan :=
  quickScanF pats cache (entriesSize tree) [] tree

/-- `FileSynchronizer.checkForChangesIncremental(now)`: full scan when the
interval elapsed or on first run (setting `lastFullScan := now`), else a
quick mtime scan, falling back to the full rescan when it flags
anything. -/
def checkForChangesIncremental (sha : List Nat → String) (pats : List String)
    (tree : FsEntries) (now : Nat) (w : SyncWorld) : Changes × SyncWorld :=
  if now - w.st.lastFullScan > FULL_SCAN_INTERVAL ∨ w.st.lastFullScan = 0 then
    checkForChanges sha pats tree { w with st := { w.st with lastFullScan := now } }
  else
    let quick := quickDirectoryScan pats w.st.mtimeCache tree
    if quick.hasChanges then checkForChanges sha pats tree w
    else (Changes.mkEmpty, w)

/-! ## Single-file update (`updateSingleFile`) -/

inductive UAction : Type
  | added
  | modified
  | removed
  deriving DecidableEq, Repr

/-- `FileSynchronizer.updateSingleFile(filePath)`.  `target` is the
current state of the path on disk (`none` when `fs.access` fails).  The
result is `none` when the method throws (non-regular non-directory
entries, whose read fails).  Note the result type has no `noop`
constructor: the method reports `removed` for already-absent or ignored
paths and `modified` for an unchanged file. -/
def updateSingleFile (sha : List Nat → String) (pats : List String)
    (relPath : List String) (target : Option FsEntry) (w : SyncWorld) :
    Option ((UAction × List String) × SyncWorld) :=
  match target with
  | none =>
    if jsMapHas w.st.fileHashes relPath then
      let newFH := jsMapDelete w.st.fileHashes relPath
      let st' : SyncState :=
        { fileHashes := newFH
          mtimeCache := jsMapDelete w.st.mtimeCache relPath
          merkleDAG := buildMerkleDAG newFH
          lastFullScan := w.st.lastFullScan }
      some ((.removed, relPath), { st := st', snapshotFile := some (snapshotOf st') })
    else some ((.removed, relPath), w)
  | some (.dir _) => some ((.removed, relPath), w)
  | some .other => none
  | some (.file bytes mtime) =>
    if shouldIgnore pats relPath false then some ((.removed, relPath), w)
    else
      let hc := hashFileOptimized sha w.st.fileHashes w.st.mtimeCache relPath bytes mtime
      match jsMapGet w.st.fileHashes relPath with
      | none =>
        let newFH := jsMapSet w.st.fileHashes relPath hc.1
        let st' : SyncState :=
          { fileHashes := newFH
            mtimeCache := hc.2
            merkleDAG := buildMerkleDAG newFH
            lastFullScan := w.st.lastFullScan }
        some ((.added, relPath), { st := st', snapshotFile := some (snapshotOf st') })
      | some existingHash =>
        if existingHash ≠ hc.1 then
          let newFH := jsMapSet w.st.fileHashes relPath hc.1
          let st' : SyncState :=
            { fileHashes := newFH
              mtimeCache := hc.2
              merkleDAG := buildMerkleDAG newFH
              lastFullScan := w.st.lastFullScan }
          some ((.modified, relPath), { st := st', snapshotFile := some (snapshotOf st') })
        else
          some ((.modified, relPath), { w with st := { w.st with mtimeCache := hc.2 } })

/-! ## Concrete hash function for witnesses and counterexamples -/

/-- A concrete stand-in for SHA-256 in closed statements (injectivity of
the real digest is immaterial there: the statements compare outputs at
concrete inputs). -/
def shaDemo (bs : List Nat) : String :=
  String.mk (bs.map (fun b => Char.ofNat (b % 0xD800)))

/-! ## C4: determinism of the Merkle root -/

theorem jsMapGet_fst_values (m : List (List String × String))
    (hnd : (m.map Prod.fst).Nodup) :
    (m.map Prod.fst).map (fun k => (jsMapGet m k).getD "") = m.map Prod.snd := by
  induction m with
  | nil => simp
  | cons hd tl ih =>
      obtain ⟨k, v⟩ := hd
      simp only [List.map_cons, List.nodup_cons] at hnd
      simp only [List.map_cons]
      congr 1
      · simp [jsMapGet]
      · calc (tl.map Prod.fst).map (fun k' => (jsMapGet ((k, v) :: tl) k').getD "")
            = (tl.map Prod.fst).map (fun k' => (jsMapGet tl k').getD "") := by
              apply List.map_congr_left
              intro a ha
              have hak : k ≠ a := fun h => hnd.1 (h ▸ ha)
              simp [jsMapGet, hak]
          _ = tl.map Prod.snd := ih hnd.2

def c4Store : List (List String × String) := [(["a"], "h1"), (["b"], "h2")]

/-- C4: counterexample.  The claim states that two stores holding equal
(path, hash) entry sets produce equal Merkle roots regardless of
insertion order.  `c4Store` and its reversal hold exactly the same
entries, yet their roots differ, because `buildMerkleDAG` concatenates
the hash values in map insertion order when building the root payload. -/
theorem C4_counterexample :
    (∀ e, e ∈ c4Store ↔ e ∈ c4Store.reverse) ∧
    (buildMerkleDAG c4Store).rootData ≠ (buildMerkleDAG c4Store.reverse).rootData := by
  constructor
  · intro e; simp
  · decide

/-- C4 (amended): the Merkle root payload is a deterministic function of
the insertion-ordered sequence of hash values: two stores (with
duplicate-free keys, as `Map` guarantees) whose hash-value sequences
agree produce equal root payloads; contrapositively, a root mismatch
guarantees the insertion-ordered hash sequences differ, though not that
some (path, hash) entry differs as a set element. -/
theorem C4_amended (m1 m2 : List (List String × String))
    (h1 : (m1.map Prod.fst).Nodup) (h2 : (m2.map Prod.fst).Nodup)
    (hv : m1.map Prod.snd = m2.map Prod.snd) :
    (buildMerkleDAG m1).rootData = (buildMerkleDAG m2).rootData := by
  simp only [buildMerkleDAG]
  rw [jsMapGet_fst_values m1 h1, jsMapGet_fst_values m2 h2, hv]

/-- C4 (amended), witness: two singleton stores with different paths but
the same hash value have equal root payloads. -/
theorem C4_amended_witness :
    (buildMerkleDAG [(["a"], "h")]).rootData = (buildMerkleDAG [(["b"], "h")]).rootData :=
  C4_amended [(["a"], "h")] [(["b"], "h")] (by decide) (by decide) rfl

/-! ## C3: classification of `updateSingleFile` -/

def c3World : SyncWorld := ⟨⟨[], [], MerkleDAG.mkEmpty, 0⟩, none⟩

/-- C3: counterexample.  The claim states that when the file is absent
and was not in the store, `updateSingleFile` returns a `noop` action
distinct from `removed` (`removed` being reserved for the case where the
entry was present and got removed).  On an absent path with an empty
store the code returns `removed`: the result type has no `noop` at
all. -/
theorem C3_counterexample :
    jsMapHas c3World.st.fileHashes ["a.ts"] = false ∧
    updateSingleFile shaDemo [] ["a.ts"] none c3World =
      some ((UAction.removed, ["a.ts"]), c3World) := by
  constructor
  · rfl
  · rfl

/-- C3 (amended): `updateSingleFile` classifies as the code does — absent
and in store: remove hash and mtime entries, return `removed`; absent
and not in store: return `removed` with no state change; a present
directory or an ignored path: return `removed` with no state change;
present and not in store: insert, return `added`; present with a
differing hash: update, return `modified`; present with an unchanged
hash: return `modified` leaving the hash store unchanged (only the mtime
cache may be refreshed).  There is no `noop` action. -/
theorem C3_amended (sha : List Nat → String) (pats : List String)
    (rel : List String) (bytes : List Nat) (mtime : Nat) (w : SyncWorld)
    (hndF : (w.st.fileHashes.map Prod.fst).Nodup)
    (hndM : (w.st.mtimeCache.map Prod.fst).Nodup) :
    (jsMapHas w.st.fileHashes rel = true →
      ∃ w' : SyncWorld,
        updateSingleFile sha pats rel none w = some ((UAction.removed, rel), w') ∧
        jsMapGet w'.st.fileHashes rel = none ∧ jsMapGet w'.st.mtimeCache rel = none) ∧
    (jsMapHas w.st.fileHashes rel = false →
      updateSingleFile sha pats rel none w = some ((UAction.removed, rel), w)) ∧
    (∀ cs, updateSingleFile sha pats rel (some (FsEntry.dir cs)) w =
      some ((UAction.removed, rel), w)) ∧
    (shouldIgnore pats rel false = true →
      updateSingleFile sha pats rel (some (FsEntry.file bytes mtime)) w =
        some ((UAction.removed, rel), w)) ∧
    (shouldIgnore pats rel false = false → jsMapGet w.st.fileHashes rel = none →
      ∃ w' : SyncWorld,
        updateSingleFile sha pats rel (some (FsEntry.file bytes mtime)) w =
          some ((UAction.added, rel), w') ∧
        jsMapGet w'.st.fileHashes rel =
          some (hashFileOptimized sha w.st.fileHashes w.st.mtimeCache rel bytes mtime).1) ∧
    (∀ h, shouldIgnore pats rel false = false → jsMapGet w.st.fileHashes rel = some h →
      h ≠ (hashFileOptimized sha w.st.fileHashes w.st.mtimeCache rel bytes mtime).1 →
      ∃ w' : SyncWorld,
        updateSingleFile sha pats rel (some (FsEntry.file bytes mtime)) w =
          some ((UAction.modified, rel), w') ∧
        jsMapGet w'.st.fileHashes rel =
          some (hashFileOptimized sha w.st.fileHashes w.st.mtimeCache rel bytes mtime).1) ∧
    (∀ h, shouldIgnore pats rel false = false → jsMapGet w.st.fileHashes rel = some h →
      h = (hashFileOptimized sha w.st.fileHashes w.st.mtimeCache rel bytes mtime).1 →
      updateSingleFile sha pats rel (some (FsEntry.file bytes mtime)) w =
        some ((UAction.modified, rel),
          { w with st := { w.st with
            mtimeCache :=
              (hashFileOptimized sha w.st.fileHashes w.st.mtimeCache rel bytes mtime).2 } })) := by
  refine ⟨?_, ?_, ?_, ?_, ?_, ?_, ?_⟩
  · intro hHas
    refine ⟨⟨⟨jsMapDelete w.st.fileHashes rel, jsMapDelete w.st.mtimeCache rel,
        buildMerkleDAG (jsMapDelete w.st.fileHashes rel), w.st.lastFullScan⟩,
        some (snapshotOf ⟨jsMapDelete w.st.fileHashes rel, jsMapDelete w.st.mtimeCache rel,
          buildMerkleDAG (jsMapDelete w.st.fileHashes rel), w.st.lastFullScan⟩)⟩, ?_, ?_, ?_⟩
    · simp [updateSingleFile, hHas]
    · exact jsMapGet_delete_self _ _ hndF
    · exact jsMapGet_delete_self _ _ hndM
  · intro hHas
    simp [updateSingleFile, hHas]
  · intro cs
    simp [updateSingleFile]
  · intro hIgn
    simp [updateSingleFile, hIgn]
  · intro hIgn hNone
    refine ⟨⟨⟨jsMapSet w.st.fileHashes rel
        (hashFileOptimized sha w.st.fileHashes w.st.mtimeCache rel bytes mtime).1,
        (hashFileOptimized sha w.st.fileHashes w.st.mtimeCache rel bytes mtime).2,
        buildMerkleDAG (jsMapSet w.st.fileHashes rel
          (hashFileOptimized sha w.st.fileHashes w.st.mtimeCache rel bytes mtime).1),
        w.st.lastFullScan⟩,
        some (snapshotOf ⟨jsMapSet w.st.fileHashes rel
          (hashFileOptimized sha w.st.fileHashes w.st.mtimeCache rel bytes mtime).1,
          (hashFileOptimized sha w.st.fileHashes w.st.mtimeCache rel bytes mtime).2,
          buildMerkleDAG (jsMapSet w.st.fileHashes rel
            (hashFileOptimized sha w.st.fileHashes w.st.mtimeCache rel bytes mtime).1),
          w.st.lastFullScan⟩)⟩, ?_, ?_⟩
    · simp [updateSingleFile, hIgn, hNone]
    · exact jsMapGet_set_self _ _ _
  · intro h hIgn hSome hne
    refine ⟨⟨⟨jsMapSet w.st.fileHashes rel
        (hashFileOptimized sha w.st.fileHashes w.st.mtimeCache rel bytes mtime).1,
        (hashFileOptimized sha w.st.fileHashes w.st.mtimeCache rel bytes mtime).2,
        buildMerkleDAG (jsMapSet w.st.fileHashes rel
          (hashFileOptimized sha w.st.fileHashes w.st.mtimeCache rel bytes mtime).1),
        w.st.lastFullScan⟩,
        some (snapshotOf ⟨jsMapSet w.st.fileHashes rel
          (hashFileOptimized sha w.st.fileHashes w.st.mtimeCache rel bytes mtime).1,
          (hashFileOptimized sha w.st.fileHashes w.st.mtimeCache rel bytes mtime).2,
          buildMerkleDAG (jsMapSet w.st.fileHashes rel
            (hashFileOptimized sha w.st.fileHashes w.st.mtimeCache rel bytes mtime).1),
          w.st.lastFullScan⟩)⟩, ?_, ?_⟩
    · simp [updateSingleFile, hIgn, hSome, hne]
    · exact jsMapGet_set_self _ _ _
  · intro h hIgn hSome heq
    simp [updateSingleFile, hIgn, hSome, heq]

/-- C3 (amended), witness at a concrete input: an unchanged file (cache
hit on mtime) yields action `modified` with the hash store untouched. -/
theorem C3_amended_witness :
    updateSingleFile shaDemo [] ["a.ts"]
        (some (FsEntry.file [104] 7))
        ⟨⟨[(["a.ts"], shaDemo (utf8RoundTrip [104]))], [(["a.ts"], 7)], MerkleDAG.mkEmpty, 0⟩, none⟩ =
      some ((UAction.modified, ["a.ts"]),
        ⟨⟨[(["a.ts"], shaDemo (utf8RoundTrip [104]))], [(["a.ts"], 7)], MerkleDAG.mkEmpty, 0⟩, none⟩) := by
  have h := (C3_amended shaDemo [] ["a.ts"] [104] 7
      ⟨⟨[(["a.ts"], shaDemo (utf8RoundTrip [104]))], [(["a.ts"], 7)], MerkleDAG.mkEmpty, 0⟩, none⟩
      (by decide) (by decide)).2.2.2.2.2.2
  have hres := h (shaDemo (utf8RoundTrip [104])) (by decide) (by rfl) (by decide)
  exact hres

/-! ## C8: the mtime-cache invariant -/

def c8World : SyncWorld :=
  ⟨⟨[(["gone.ts"], "h1")], [(["gone.ts"], 5)],
    buildMerkleDAG [(["gone.ts"], "h1")], 0⟩, none⟩

/-- C8: counterexample.  The claim states that every operation that
removes or replaces hash-store entries — the full-scan commit included —
keeps the mtime cache free of entries for paths no longer in the store.
A full scan of an emptied directory commits an empty hash store but the
deleted file's mtime-cache entry survives. -/
theorem C8_counterexample :
    jsMapGet (checkForChanges shaDemo [] FsEntries.nil c8World).2.st.fileHashes
        ["gone.ts"] = none ∧
    jsMapGet (checkForChanges shaDemo [] FsEntries.nil c8World).2.st.mtimeCache
        ["gone.ts"] = some 5 := by
  constructor
  · rfl
  · rfl

/-- C8 (amended): the true parts of the invariant.  Single-file removal
purges the path from both the hash store and the mtime cache, leaving
every other mtime entry untouched; and whenever `hashFileOptimized`
observes a file with mtime `m`, the resulting cache maps the path to
exactly `m` (on a cache hit it already did, on a rehash it is set).  A
full-scan commit, however, does not purge mtime entries of paths that
left the store. -/
theorem C8_amended (sha : List Nat → String) (pats : List String)
    (rel : List String) (w : SyncWorld)
    (hndF : (w.st.fileHashes.map Prod.fst).Nodup)
    (hndM : (w.st.mtimeCache.map Prod.fst).Nodup) :
    (jsMapHas w.st.fileHashes rel = true →
      ∃ w' : SyncWorld,
        updateSingleFile sha pats rel none w = some ((UAction.removed, rel), w') ∧
        jsMapGet w'.st.fileHashes rel = none ∧
        jsMapGet w'.st.mtimeCache rel = none ∧
        (∀ q, q ≠ rel → jsMapGet w'.st.mtimeCache q = jsMapGet w.st.mtimeCache q)) ∧
    (∀ bytes mtime,
      jsMapGet (hashFileOptimized sha w.st.fileHashes w.st.mtimeCache rel bytes mtime).2
        rel = some mtime) := by
  constructor
  · intro hHas
    refine ⟨⟨⟨jsMapDelete w.st.fileHashes rel, jsMapDelete w.st.mtimeCache rel,
        buildMerkleDAG (jsMapDelete w.st.fileHashes rel), w.st.lastFullScan⟩,
        some (snapshotOf ⟨jsMapDelete w.st.fileHashes rel, jsMapDelete w.st.mtimeCache rel,
          buildMerkleDAG (jsMapDelete w.st.fileHashes rel), w.st.lastFullScan⟩)⟩,
        ?_, ?_, ?_, ?_⟩
    · simp [updateSingleFile, hHas]
    · exact jsMapGet_delete_self _ _ hndF
    · exact jsMapGet_delete_self _ _ hndM
    · intro q hq
      exact jsMapGet_delete_other _ _ _ (Ne.symm hq)
  · intro bytes mtime
    unfold hashFileOptimized
    by_cases hcache : jsMapGet w.st.mtimeCache rel = some mtime ∧
        (jsMapGet w.st.fileHashes rel).getD "" ≠ ""
    · simp only [if_pos hcache]
      exact hcache.1
    · simp only [if_neg hcache]
      exact jsMapGet_set_self _ _ _

/-- C8 (amended), witness: removing the only stored file purges both
maps, and hashing a file records its observed mtime. -/
theorem C8_amended_witness :
    (jsMapHas c8World.st.fileHashes ["gone.ts"] = true →
      ∃ w' : SyncWorld,
        updateSingleFile shaDemo [] ["gone.ts"] none c8World =
          some ((UAction.removed, ["gone.ts"]), w') ∧
        jsMapGet w'.st.fileHashes ["gone.ts"] = none ∧
        jsMapGet w'.st.mtimeCache ["gone.ts"] = none ∧
        (∀ q, q ≠ ["gone.ts"] →
          jsMapGet w'.st.mtimeCache q = jsMapGet c8World.st.mtimeCache q)) ∧
    (∀ bytes mtime,
      jsMapGet (hashFileOptimized shaDemo c8World.st.fileHashes c8World.st.mtimeCache
        ["gone.ts"] bytes mtime).2 ["gone.ts"] = some mtime) :=
  C8_amended shaDemo [] ["gone.ts"] c8World (by decide) (by decide)

/-! ## `ToolHandlers.quickSyncCheck`

The handler keeps `lastSyncCache : Map<codebasePath, {timestamp,
hasChanges}>`.  The modelled call takes the current time, whether a
synchronizer is registered for the collection, and `failure`: `none`
when the awaited change check completes, `some wErr` when it throws
leaving the synchronizer world in `wErr` (the only throwing step of the
check is the snapshot write, which happens after the in-memory commit;
the catch branch of `quickSyncCheck` then caches a negative result).
The `syncTime` wall-clock duration field of the result is not
modelled. -/

def Changes.nonempty (c : Changes) : Bool :=
  !c.added.isEmpty || !c.modified.isEmpty || !c.removed.isEmpty

structure SyncCheckResult where
  hasChanges : Bool
  changedFiles : List (List String)
  fromCache : Bool
  deriving DecidableEq, Repr

def quickSyncCheck (sha : List Nat → String) (pats : List String)
    (cp : String) (now : Nat) (hasSync : Bool) (failure : Option SyncWorld)
    (tree : FsEntries) (cache : List (String × (Nat × Bool))) (w : SyncWorld) :
    SyncCheckResult × List (String × (Nat × Bool)) × SyncWorld :=
  let hit :=
    match jsMapGet cache cp with
    | some entry => decide (now - entry.1 < 2000)
    | none => false
  if hit then
    let entry := (jsMapGet cache cp).getD (0, false)
    (⟨entry.2, [], true⟩, cache, w)
  else if !hasSync then
    (⟨false, [], false⟩, jsMapSet cache cp (now, false), w)
  else
    match failure with
    | some wErr =>
      (⟨false, [], false⟩, jsMapSet cache cp (now, false), wErr)
    | none =>
      let checked := checkForChangesIncremental sha pats tree now w
      let hasChanges := checked.1.nonempty
      (⟨hasChanges, checked.1.added ++ checked.1.modified ++ checked.1.removed, false⟩,
        jsMapSet cache cp (now, hasChanges), checked.2)

/-! ## C2: the pre-search check and the synchronizer state -/

def c2World : SyncWorld := ⟨⟨[], [], buildMerkleDAG [], 0⟩, none⟩

def c2Tree : FsEntries := FsEntries.cons "a.ts" (FsEntry.file [104] 7) FsEntries.nil

/-- C2: counterexample.  The claim states that the pre-search change
check leaves the stored file-hash map, the Merkle summary, and the
on-disk snapshot unchanged.  On a cache miss over a changed tree the
check delegates to `checkForChangesIncremental`, which commits the new
hashes and Merkle summary and saves the snapshot. -/
theorem C2_counterexample :
    (quickSyncCheck shaDemo [] "/cb" 1 true none c2Tree [] c2World).2.2.st.fileHashes ≠
      c2World.st.fileHashes ∧
    (quickSyncCheck shaDemo [] "/cb" 1 true none c2Tree [] c2World).2.2.st.merkleDAG ≠
      c2World.st.merkleDAG ∧
    (quickSyncCheck shaDemo [] "/cb" 1 true none c2Tree [] c2World).2.2.snapshotFile ≠
      c2World.snapshotFile := by
  refine ⟨?_, ?_, ?_⟩ <;> decide

/-- C2 (amended): on a cache miss on a first run (`lastFullScan = 0`)
the pre-search check performs the full rescan and itself applies what it
finds: when the Merkle summaries differ it commits the freshly scanned
hash map and summary, saves the snapshot, and reports `hasChanges` true
exactly when the file-level diff is nonempty; when the summaries agree
it leaves the hash store, summary and snapshot file unchanged (only the
mtime cache and the last-full-scan timestamp advance).  Only the
vector-store side of the update is left to the subsequently invoked
incremental-reindex workflow. -/
theorem C2_amended (sha : List Nat → String) (pats : List String) (cp : String)
    (now : Nat) (tree : FsEntries) (cache : List (String × (Nat × Bool)))
    (w : SyncWorld) (hmiss : jsMapGet cache cp = none)
    (hfs : w.st.lastFullScan = 0) :
    ((MerkleDAG.compareDags w.st.merkleDAG
        (buildMerkleDAG (generateFileHashes sha pats w.st.fileHashes tree
          w.st.mtimeCache).1)).isEmpty = false →
      (quickSyncCheck sha pats cp now true none tree cache w).2.2 =
        ⟨⟨(generateFileHashes sha pats w.st.fileHashes tree w.st.mtimeCache).1,
          (generateFileHashes sha pats w.st.fileHashes tree w.st.mtimeCache).2,
          buildMerkleDAG (generateFileHashes sha pats w.st.fileHashes tree
            w.st.mtimeCache).1, now⟩,
         some (snapshotOf
          ⟨(generateFileHashes sha pats w.st.fileHashes tree w.st.mtimeCache).1,
           (generateFileHashes sha pats w.st.fileHashes tree w.st.mtimeCache).2,
           buildMerkleDAG (generateFileHashes sha pats w.st.fileHashes tree
             w.st.mtimeCache).1, now⟩)⟩ ∧
      (quickSyncCheck sha pats cp now true none tree cache w).1.hasChanges =
        (compareStates w.st.fileHashes
          (generateFileHashes sha pats w.st.fileHashes tree w.st.mtimeCache).1).nonempty ∧
      (quickSyncCheck sha pats cp now true none tree cache w).2.1 =
        jsMapSet cache cp (now,
          (compareStates w.st.fileHashes
            (generateFileHashes sha pats w.st.fileHashes tree
              w.st.mtimeCache).1).nonempty)) ∧
    ((MerkleDAG.compareDags w.st.merkleDAG
        (buildMerkleDAG (generateFileHashes sha pats w.st.fileHashes tree
          w.st.mtimeCache).1)).isEmpty = true →
      (quickSyncCheck sha pats cp now true none tree cache w).1.hasChanges = false ∧
      (quickSyncCheck sha pats cp now true none tree cache w).2.2.st.fileHashes =
        w.st.fileHashes ∧
      (quickSyncCheck sha pats cp now true none tree cache w).2.2.st.merkleDAG =
        w.st.merkleDAG ∧
      (quickSyncCheck sha pats cp now true none tree cache w).2.2.snapshotFile =
        w.snapshotFile ∧
      (quickSyncCheck sha pats cp now true none tree cache w).2.2.st.lastFullScan =
        now) := by
  have hcond : (now - w.st.lastFullScan > FULL_SCAN_INTERVAL ∨ w.st.lastFullScan = 0) := by
    right; exact hfs
  constructor
  · intro hdag
    simp only [quickSyncCheck, hmiss, Bool.not_true, if_false,
      checkForChangesIncremental, if_pos hcond, checkForChanges, hdag,
      Bool.not_false, if_true, Changes.nonempty, compareStates]
    simp [checkForChanges, hdag, compareStates, Changes.nonempty, hfs]
  · intro hdag
    simp only [quickSyncCheck, hmiss, Bool.not_true, if_false,
      checkForChangesIncremental, if_pos hcond]
    simp [checkForChanges, hdag, Changes.mkEmpty, Changes.nonempty, hfs]

/-- C2 (amended), witness: the first-run scan over a one-file tree from
an empty store commits the scanned state. -/
theorem C2_amended_witness :
    ((MerkleDAG.compareDags c2World.st.merkleDAG
        (buildMerkleDAG (generateFileHashes shaDemo [] c2World.st.fileHashes c2Tree
          c2World.st.mtimeCache).1)).isEmpty = false →
      (quickSyncCheck shaDemo [] "/cb" 1 true none c2Tree [] c2World).2.2 =
        ⟨⟨(generateFileHashes shaDemo [] c2World.st.fileHashes c2Tree c2World.st.mtimeCache).1,
          (generateFileHashes shaDemo [] c2World.st.fileHashes c2Tree c2World.st.mtimeCache).2,
          buildMerkleDAG (generateFileHashes shaDemo [] c2World.st.fileHashes c2Tree
            c2World.st.mtimeCache).1, 1⟩,
         some (snapshotOf
          ⟨(generateFileHashes shaDemo [] c2World.st.fileHashes c2Tree c2World.st.mtimeCache).1,
           (generateFileHashes shaDemo [] c2World.st.fileHashes c2Tree c2World.st.mtimeCache).2,
           buildMerkleDAG (generateFileHashes shaDemo [] c2World.st.fileHashes c2Tree
             c2World.st.mtimeCache).1, 1⟩)⟩ ∧
      (quickSyncCheck shaDemo [] "/cb" 1 true none c2Tree [] c2World).1.hasChanges =
        (compareStates c2World.st.fileHashes
          (generateFileHashes shaDemo [] c2World.st.fileHashes c2Tree
            c2World.st.mtimeCache).1).nonempty ∧
      (quickSyncCheck shaDemo [] "/cb" 1 true none c2Tree [] c2World).2.1 =
        jsMapSet [] "/cb" (1,
          (compareStates c2World.st.fileHashes
            (generateFileHashes shaDemo [] c2World.st.fileHashes c2Tree
              c2World.st.mtimeCache).1).nonempty)) ∧
    ((MerkleDAG.compareDags c2World.st.merkleDAG
        (buildMerkleDAG (generateFileHashes shaDemo [] c2World.st.fileHashes c2Tree
          c2World.st.mtimeCache).1)).isEmpty = true →
      (quickSyncCheck shaDemo [] "/cb" 1 true none c2Tree [] c2World).1.hasChanges = false ∧
      (quickSyncCheck shaDemo [] "/cb" 1 true none c2Tree [] c2World).2.2.st.fileHashes =
        c2World.st.fileHashes ∧
      (quickSyncCheck shaDemo [] "/cb" 1 true none c2Tree [] c2World).2.2.st.merkleDAG =
        c2World.st.merkleDAG ∧
      (quickSyncCheck shaDemo [] "/cb" 1 true none c2Tree [] c2World).2.2.snapshotFile =
        c2World.snapshotFile ∧
      (quickSyncCheck shaDemo [] "/cb" 1 true none c2Tree [] c2World).2.2.st.lastFullScan =
        1) :=
  C2_amended shaDemo [] "/cb" 1 c2Tree [] c2World rfl rfl

/-- C10: when the pre-search check itself throws, the handler records
`hasChanges = false` in the per-codebase sync cache stamped with the
current time and returns a normal (non-error) result, so the search
proceeds; and for as long as strictly less than 2000 ms have elapsed,
every subsequent check on that codebase takes the cache-hit path —
reporting the index up to date from the cache, performing no change
detection, and leaving the sync cache and synchronizer state untouched —
regardless of the synchronizer, the tree, or further failures. -/
theorem C10_confirmed (sha : List Nat → String) (pats : List String) (cp : String)
    (t0 : Nat) (tree : FsEntries) (cache : List (String × (Nat × Bool)))
    (w wErr : SyncWorld)
    (hmiss : ∀ e, jsMapGet cache cp = some e → ¬ (t0 - e.1 < 2000)) :
    quickSyncCheck sha pats cp t0 true (some wErr) tree cache w =
      (⟨false, [], false⟩, jsMapSet cache cp (t0, false), wErr) ∧
    (∀ (t' : Nat) (hasSync' : Bool) (failure' : Option SyncWorld) (tree' : FsEntries)
        (w' : SyncWorld), t' - t0 < 2000 →
      quickSyncCheck sha pats cp t' hasSync' failure' tree' (jsMapSet cache cp (t0, false)) w' =
        (⟨false, [], true⟩, jsMapSet cache cp (t0, false), w')) := by
  constructor
  · cases hc : jsMapGet cache cp with
    | none => simp [quickSyncCheck, hc]
    | some e =>
        have hstale := hmiss e hc
        simp [quickSyncCheck, hc, hstale]
  · intro t' hasSync' failure' tree' w' hfresh
    simp [quickSyncCheck, jsMapGet_set_self, hfresh]

/-- C10, witness: a failing check at time 5 on an empty cache caches a
negative entry, and a re-check at time 6 is served from the cache. -/
theorem C10_confirmed_witness :
    (quickSyncCheck shaDemo [] "/cb" 5 true (some c2World) FsEntries.nil [] c2World =
      (⟨false, [], false⟩, jsMapSet [] "/cb" (5, false), c2World)) ∧
    (∀ (t' : Nat) (hasSync' : Bool) (failure' : Option SyncWorld) (tree' : FsEntries)
        (w' : SyncWorld), t' - 5 < 2000 →
      quickSyncCheck shaDemo [] "/cb" t' hasSync' failure' tree' (jsMapSet [] "/cb" (5, false)) w' =
        (⟨false, [], true⟩, jsMapSet [] "/cb" (5, false), w')) :=
  C10_confirmed shaDemo [] "/cb" 5 FsEntries.nil [] c2World c2World
    (fun e he => by simp [jsMapGet] at he)

/-! ## C9: `handleSearchCode` extension-filter validation

The handler keeps the string entries of `extensionFilter`, trims them,
drops empty results, and rejects the request iff some remaining entry
fails `startsWith('.') && length > 1 && !/\s/.test(e)`; otherwise it
builds `fileExtension in [...]`.  Whitespace is modelled by the
characters JavaScript regexps class as `\s` (the practically occurring
ones). -/

def jsSpaceChars : List Char :=
  [' ', Char.ofNat 9, Char.ofNat 10, Char.ofNat 11, Char.ofNat 12, Char.ofNat 13,
    Char.ofNat 0xA0, Char.ofNat 0x2028, Char.ofNat 0x2029, Char.ofNat 0xFEFF]

def isJsSpace (c : Char) : Bool := jsSpaceChars.contains c

def containsJsSpace (s : String) : Bool := s.toList.any isJsSpace

/-- `String.prototype.trim`. -/
def jsTrim (s : String) : String :=
  String.mk (((s.toList.dropWhile isJsSpace).reverse.dropWhile isJsSpace).reverse)

/-- A non-string JSON array entry is dropped by the `typeof` filter. -/
inductive JsVal : Type
  | str (s : String)
  | other
  deriving DecidableEq, Repr

/-- The acceptance predicate the code applies to each cleaned entry. -/
def extEntryValid (e : String) : Bool :=
  strStartsWithDot e && decide (e.length > 1) && !containsJsSpace e

/-- The cleaning pipeline: keep strings, trim, drop empties. -/
def cleanedExtensions (l : List JsVal) : List String :=
  ((l.filterMap (fun v => match v with | .str s => some s | .other => none)).map
    jsTrim).filter (fun s => decide (s.length > 0))

/-- The filter-building fragment of `ToolHandlers.handleSearchCode`:
`Except.error invalid` is the input-error response naming the offending
entries; `Except.ok fe` lets the search proceed with optional filter
expression `fe`. -/
def buildExtensionFilter (l : List JsVal) : Except (List String) (Option String) :=
  if l.isEmpty then Except.ok none
  else
    let cleaned := cleanedExtensions l
    let invalid := cleaned.filter (fun e => !extEntryValid e)
    if invalid.isEmpty then
      Except.ok (some ("fileExtension in [" ++
        String.intercalate ", " (cleaned.map (fun e => "'" ++ e ++ "'")) ++ "]"))
    else Except.error invalid

/-- The claim-side predicate: the entry matches the regular expression
`\.[A-Za-z0-9]+` (a dot followed by one or more ASCII letters or
digits). -/
def extRegexMatch (s : String) : Bool :=
  match s.toList with
  | [] => false
  | c :: rest => c == '.' && !rest.isEmpty && rest.all (fun d => d.isAlphanum)

/-- C9: counterexample.  The claim states an entry is accepted iff it
matches `\.[A-Za-z0-9]+`.  The entry `".++"` matches that expression
nowhere (neither anchored nor as a substring: the dot is followed by
`+`), yet the request is accepted and the filter expression built. -/
theorem C9_counterexample :
    extRegexMatch ".++" = false ∧
    buildExtensionFilter [JsVal.str ".++"] =
      Except.ok (some "fileExtension in ['.++']") := by
  constructor
  · rfl
  · rfl

theorem alphanum_not_jsSpace (c : Char) (h : c.isAlphanum = true) : isJsSpace c = false := by
  by_contra hsp
  have hmem : c ∈ jsSpaceChars := by
    have := Bool.not_eq_false (isJsSpace c) |>.mp hsp
    simpa [isJsSpace] using this
  simp only [jsSpaceChars, List.mem_cons, List.not_mem_nil, or_false] at hmem
  rcases hmem with h1 | h1 | h1 | h1 | h1 | h1 | h1 | h1 | h1 | h1 <;>
    (subst h1; exact absurd h (by decide))

/-- C9 (amended): the handler accepts a request iff every cleaned entry
(non-string entries dropped, entries trimmed, whitespace-only entries
silently dropped) starts with a dot, has length at least two and
contains no whitespace; this strictly contains the entries matching
`\.[A-Za-z0-9]+` — every regex-matching entry is accepted, but entries
such as `".++"` are accepted as well. -/
theorem C9_amended :
    (∀ l : List JsVal,
      (∃ fe, buildExtensionFilter l = Except.ok fe) ↔
        (cleanedExtensions l).all extEntryValid = true) ∧
    (∀ s : String, extRegexMatch s = true → extEntryValid s = true) := by
  constructor
  · intro l
    constructor
    · rintro ⟨fe, hfe⟩
      by_cases hemp : l.isEmpty
      · have : l = [] := List.isEmpty_iff.mp hemp
        subst this
        rfl
      · simp only [buildExtensionFilter, if_neg hemp] at hfe
        by_cases hinv : ((cleanedExtensions l).filter (fun e => !extEntryValid e)).isEmpty
        · rw [List.isEmpty_iff, List.filter_eq_nil_iff] at hinv
          rw [List.all_eq_true]
          intro e he
          have := hinv e he
          simpa using this
        · simp only [if_neg hinv] at hfe
          exact absurd hfe (by simp)
    · intro hall
      by_cases hemp : l.isEmpty
      · exact ⟨none, by simp [buildExtensionFilter, hemp]⟩
      · have hinv : ((cleanedExtensions l).filter (fun e => !extEntryValid e)) = [] := by
          rw [List.filter_eq_nil_iff]
          intro e he
          have := List.all_eq_true.mp hall e he
          simp [this]
        refine ⟨some ("fileExtension in [" ++
          String.intercalate ", " ((cleanedExtensions l).map (fun e => "'" ++ e ++ "'")) ++ "]"),
          ?_⟩
        simp [buildExtensionFilter, hemp, hinv]
  · intro s h
    unfold extRegexMatch at h
    cases hs : s.toList with
    | nil => rw [hs] at h; exact absurd h (by decide)
    | cons c rest =>
        rw [hs] at h
        simp only [Bool.and_eq_true, beq_iff_eq, List.all_eq_true] at h
        obtain ⟨⟨hc, hne⟩, hall⟩ := h
        subst hc
        have hsd : strStartsWithDot s = true := by
          unfold strStartsWithDot
          rw [hs]
          rfl
        have hlen : decide (s.length > 1) = true := by
          have hl : s.length = rest.length + 1 := by
            show s.data.length = rest.length + 1
            have hdata : s.data = '.' :: rest := hs
            rw [hdata]
            rfl
          rw [hl]
          have hrest : rest ≠ [] := by
            intro hrest
            rw [hrest] at hne
            exact absurd hne (by decide)
          have hpos : 0 < rest.length := List.length_pos.mpr hrest
          simp
          omega
        have hns : containsJsSpace s = false := by
          unfold containsJsSpace
          rw [hs, List.any_eq_false]
          intro x hx
          rcases List.mem_cons.mp hx with hx | hx
          · subst hx; decide
          · simp [alphanum_not_jsSpace x (hall x hx)]
        unfold extEntryValid
        rw [hsd, hlen, hns]
        rfl

/-- C9 (amended), witness: `.ts` matches the regular expression and is
accepted; the acceptance characterization evaluated on `[".ts"]`. -/
theorem C9_amended_witness :
    ((∃ fe, buildExtensionFilter [JsVal.str ".ts"] = Except.ok fe) ↔
      (cleanedExtensions [JsVal.str ".ts"]).all extEntryValid = true) ∧
    extEntryValid ".ts" = true :=
  ⟨C9_amended.1 [JsVal.str ".ts"], C9_amended.2 ".ts" (by decide)⟩

/-! ## Snapshot serialization (`saveSnapshot` / `loadSnapshot`)

`saveSnapshot` serializes `{fileHashes, merkleDAG, mtimeCache,
lastFullScan}` with `JSON.stringify` and writes the text;
`loadSnapshot` parses it back and rebuilds the maps.  The JSON value is
modelled as an abstract syntax tree (`JSON.stringify`/`JSON.parse` are
mutually inverse between values and well-formed text); paths are
serialized as their component lists.  The Merkle serialization format is
modelled from the spec (`merkle.ts` is not under `src/`): the summary is
its root payload and child payloads. -/

mutual
inductive Json : Type
  | jnull
  | jstr (s : String)
  | jnum (n : Nat)
  | jarr (items : JsonList)
  | jobj (fields : JsonFields)
inductive JsonList : Type
  | nil
  | cons (hd : Json) (tl : JsonList)
inductive JsonFields : Type
  | nil
  | cons (key : String) (val : Json) (tl : JsonFields)
end

def jsonListOf : List Json → JsonList
  | [] => .nil
  | j :: js => .cons j (jsonListOf js)

def pathJson (p : List String) : Json := .jarr (jsonListOf (p.map Json.jstr))

def fileHashesJson (m : List (List String × String)) : Json :=
  .jarr (jsonListOf (m.map (fun e => .jarr (jsonListOf [pathJson e.1, .jstr e.2]))))

def mtimeCacheJson (m : List (List String × Nat)) : Json :=
  .jarr (jsonListOf (m.map (fun e => .jarr (jsonListOf [pathJson e.1, .jnum e.2]))))

/-- Modelled from the spec: `MerkleDAG.serialize`. -/
def merkleDagJson (d : MerkleDAG) : Json :=
  .jobj (.cons "rootData" (match d.rootData with | some s => .jstr s | none => .jnull)
    (.cons "childData" (.jarr (jsonListOf (d.childData.map Json.jstr))) .nil))

/-- The object written by `saveSnapshot`. -/
def snapshotJson (sd : SnapshotData) : Json :=
  .jobj (.cons "fileHashes" (fileHashesJson sd.fileHashes)
    (.cons "merkleDAG" (merkleDagJson sd.merkleDAG)
      (.cons "mtimeCache" (mtimeCacheJson sd.mtimeCache)
        (.cons "lastFullScan" (.jnum sd.lastFullScan) .nil))))

def jsonLookup : JsonFields → String → Option Json
  | .nil, _ => none
  | .cons k v rest, key => if k = key then some v else jsonLookup rest key

def jsonToList : JsonList → List Json
  | .nil => []
  | .cons j js => j :: jsonToList js

def optMapList {α β : Type} (f : α → Option β) : List α → Option (List β)
  | [] => some []
  | a :: as =>
    match f a with
    | some b =>
      match optMapList f as with
      | some bs => some (b :: bs)
      | none => none
    | none => none

def parseJstr : Json → Option String
  | .jstr s => some s
  | _ => none

def parsePath : Json → Option (List String)
  | .jarr items => optMapList parseJstr (jsonToList items)
  | _ => none

def parseStrPair : Json → Option (List String × String)
  | .jarr (.cons pj (.cons (.jstr h) .nil)) =>
    match parsePath pj with
    | some p => some (p, h)
    | none => none
  | _ => none

def parseNatPair : Json → Option (List String × Nat)
  | .jarr (.cons pj (.cons (.jnum n) .nil)) =>
    match parsePath pj with
    | some p => some (p, n)
    | none => none
  | _ => none

/-- Modelled from the spec: `MerkleDAG.deserialize`. -/
def parseMerkle : Json → Option MerkleDAG
  | .jobj fields =>
    match jsonLookup fields "rootData", jsonLookup fields "childData" with
    | some rj, some (.jarr cs) =>
      match optMapList parseJstr (jsonToList cs) with
      | some childData =>
        match rj with
        | .jstr s => some ⟨some s, childData⟩
        | .jnull => some ⟨none, childData⟩
        | _ => none
      | none => none
    | _, _ => none
  | _ => none

/-- `FileSynchronizer.loadSnapshot` applied to parsed snapshot text:
rebuild the hash map, deserialize the Merkle summary when the field is
present (else keep the previous one), rebuild the mtime cache when
present (else empty), default `lastFullScan` to 0 (`|| 0`).  `none`
models a thrown parse error. -/
def loadSnapshotModel (prevDAG : MerkleDAG) (j : Json) : Option SyncState :=
  match j with
  | .jobj fields =>
    match jsonLookup fields "fileHashes" with
    | some (.jarr fhList) =>
      match optMapList parseStrPair (jsonToList fhList) with
      | some fileHashes =>
        let dagStep : Option MerkleDAG :=
          match jsonLookup fields "merkleDAG" with
          | some mj => parseMerkle mj
          | none => some prevDAG
        match dagStep with
        | some dag =>
          let mtimeStep : Option (List (List String × Nat)) :=
            match jsonLookup fields "mtimeCache" with
            | some (.jarr mtList) => optMapList parseNatPair (jsonToList mtList)
            | some _ => none
            | none => some []
          match mtimeStep with
          | some mtimeCache =>
            let lastFullScan :=
              match jsonLookup fields "lastFullScan" with
              | some (.jnum n) => n
              | _ => 0
            some ⟨fileHashes, mtimeCache, dag, lastFullScan⟩
          | none => none
        | none => none
      | none => none
    | _ => none
  | _ => none

theorem jsonToList_listOf (l : List Json) : jsonToList (jsonListOf l) = l := by
  induction l with
  | nil => rfl
  | cons hd tl ih => simp [jsonListOf, jsonToList, ih]

theorem optMapList_jstr (l : List String) :
    optMapList parseJstr (l.map Json.jstr) = some l := by
  induction l with
  | nil => rfl
  | cons hd tl ih => simp [optMapList, parseJstr, ih]

theorem parsePath_pathJson (p : List String) : parsePath (pathJson p) = some p := by
  show optMapList parseJstr (jsonToList (jsonListOf (p.map Json.jstr))) = some p
  rw [jsonToList_listOf]
  exact optMapList_jstr p

theorem parseStrPairs_roundTrip (m : List (List String × String)) :
    optMapList parseStrPair
      (m.map (fun e => Json.jarr (jsonListOf [pathJson e.1, .jstr e.2]))) = some m := by
  induction m with
  | nil => rfl
  | cons hd tl ih =>
      obtain ⟨p, h⟩ := hd
      simp only [jsonListOf] at ih ⊢
      simp [optMapList, parseStrPair, parsePath_pathJson, ih]

theorem parseNatPairs_roundTrip (m : List (List String × Nat)) :
    optMapList parseNatPair
      (m.map (fun e => Json.jarr (jsonListOf [pathJson e.1, .jnum e.2]))) = some m := by
  induction m with
  | nil => rfl
  | cons hd tl ih =>
      obtain ⟨p, n⟩ := hd
      simp only [jsonListOf] at ih ⊢
      simp [optMapList, parseNatPair, parsePath_pathJson, ih]

theorem parseMerkle_roundTrip (d : MerkleDAG) : parseMerkle (merkleDagJson d) = some d := by
  obtain ⟨rd, cd⟩ := d
  have hcs : optMapList parseJstr (jsonToList (jsonListOf (cd.map Json.jstr))) = some cd := by
    rw [jsonToList_listOf]
    exact optMapList_jstr cd
  cases rd with
  | none => simp [merkleDagJson, parseMerkle, jsonLookup, hcs]
  | some s => simp [merkleDagJson, parseMerkle, jsonLookup, hcs]

/-- C6: round-trip snapshot.  For every synchronizer state — hence after
any sequence of upsert/remove operations — saving and freshly loading
restores exactly the in-memory state: the same hash-map entries, the
same mtime cache, the same Merkle summary, and the same last-full-scan
timestamp, whatever Merkle summary the fresh synchronizer held before
loading. -/
theorem C6_confirmed (st : SyncState) (prevDAG : MerkleDAG) :
    loadSnapshotModel prevDAG (snapshotJson (snapshotOf st)) = some st := by
  obtain ⟨fh, mt, dag, lfs⟩ := st
  simp only [snapshotOf, snapshotJson, fileHashesJson, mtimeCacheJson,
    loadSnapshotModel, jsonLookup, if_pos, jsonToList_listOf]
  simp [jsonLookup, parseStrPairs_roundTrip, parseNatPairs_roundTrip,
    parseMerkle_roundTrip, jsonToList_listOf]

/-! ## C7: `saveSnapshot` write behaviour

`saveSnapshot` runs `fs.mkdir(merkleDir, recursive)` followed by a
single direct `fs.writeFile(snapshotPath, JSON.stringify(data))`.  The
disk is a map from paths to file contents; `crashDisks` enumerates every
content observable at any moment of the op sequence, a plain write being
interruptible after any prefix of its data while `mkdir` and `rename`
are atomic. -/

def jsonEscape (s : String) : String :=
  String.mk ((s.toList.map (fun c =>
    if c = '"' then ['\\', '"'] else if c = '\\' then ['\\', '\\'] else [c])).flatten)

mutual
def jsonRender : Json → String
  | .jnull => "null"
  | .jstr s => "\"" ++ jsonEscape s ++ "\""
  | .jnum n => toString n
  | .jarr items => "[" ++ jsonRenderList items ++ "]"
  | .jobj fields => "\x7b" ++ jsonRenderFields fields ++ "\x7d"
def jsonRenderList : JsonList → String
  | .nil => ""
  | .cons j .nil => jsonRender j
  | .cons j rest => jsonRender j ++ "," ++ jsonRenderList rest
def jsonRenderFields : JsonFields → String
  | .nil => ""
  | .cons k v .nil => "\"" ++ jsonEscape k ++ "\":" ++ jsonRender v
  | .cons k v rest => "\"" ++ jsonEscape k ++ "\":" ++ jsonRender v ++ "," ++ jsonRenderFields rest
end

inductive FsOp : Type
  | mkdirRec (dirPath : String)
  | writeFileOp (filePath : String) (data : String)
  | renameOp (src dst : String)
  deriving DecidableEq, Repr

def applyOp (disk : List (String × String)) : FsOp → List (String × String)
  | .mkdirRec _ => disk
  | .writeFileOp p data => jsMapSet disk p data
  | .renameOp src dst =>
    match jsMapGet disk src with
    | some d => jsMapSet (jsMapDelete disk src) dst d
    | none => disk

def strPrefixes (s : String) : List String := s.toList.inits.map String.mk

def crashDisks (disk : List (String × String)) : List FsOp → List (List (String × String))
  | [] => [disk]
  | op :: rest =>
    let mids : List (List (String × String)) :=
      match op with
      | .writeFileOp p data => (strPrefixes data).map (fun pre => jsMapSet disk p pre)
      | _ => []
    disk :: mids ++ crashDisks (applyOp disk op) rest

/-- `FileSynchronizer.saveSnapshot`: create the merkle directory, then
one direct write of the serialization to the snapshot path. -/
def saveSnapshotOps (merkleDir snapshotPath : String) (st : SyncState) : List FsOp :=
  [FsOp.mkdirRec merkleDir,
    FsOp.writeFileOp snapshotPath (jsonRender (snapshotJson (snapshotOf st)))]

def c7State : SyncState := ⟨[], [], MerkleDAG.mkEmpty, 0⟩

/-- C7: counterexample.  The claim states the snapshot is written via
write-temp-then-rename, so every observable on-disk content is either
the complete previous serialization or the complete new one.  The save
writes directly: interrupting the write after zero bytes leaves a
content (the empty string) that is neither the old content nor the new
serialization. -/
theorem C7_counterexample :
    [("/snap", "")] ∈ crashDisks [("/snap", "OLD")] (saveSnapshotOps "/m" "/snap" c7State) ∧
    jsMapGet [("/snap", "")] "/snap" ≠ jsMapGet [("/snap", "OLD")] "/snap" ∧
    jsMapGet [("/snap", "")] "/snap" ≠
      some (jsonRender (snapshotJson (snapshotOf c7State))) := by
  refine ⟨?_, ?_, ?_⟩ <;> decide

/-- C7 (amended): `saveSnapshot` issues exactly a recursive directory
creation followed by one direct write of the new serialization to the
snapshot path — no temporary file and no rename — and consequently
every observable on-disk snapshot content is the previous content or
some prefix (possibly proper, possibly complete) of the new
serialization. -/
theorem C7_amended (merkleDir snapshotPath : String) (st : SyncState)
    (disk : List (String × String)) :
    saveSnapshotOps merkleDir snapshotPath st =
      [FsOp.mkdirRec merkleDir,
        FsOp.writeFileOp snapshotPath (jsonRender (snapshotJson (snapshotOf st)))] ∧
    (∀ d ∈ crashDisks disk (saveSnapshotOps merkleDir snapshotPath st),
      jsMapGet d snapshotPath = jsMapGet disk snapshotPath ∨
      ∃ pre : String, jsMapGet d snapshotPath = some pre ∧
        List.IsPrefix pre.toList (jsonRender (snapshotJson (snapshotOf st))).toList) := by
  refine ⟨rfl, ?_⟩
  intro d hd
  have hexp : crashDisks disk (saveSnapshotOps merkleDir snapshotPath st) =
      disk :: disk ::
        ((strPrefixes (jsonRender (snapshotJson (snapshotOf st)))).map
          (fun pre => jsMapSet disk snapshotPath pre) ++
          [jsMapSet disk snapshotPath (jsonRender (snapshotJson (snapshotOf st)))]) := rfl
  rw [hexp] at hd
  rcases List.mem_cons.mp hd with hd | hd
  · left; rw [hd]
  rcases List.mem_cons.mp hd with hd | hd
  · left; rw [hd]
  rcases List.mem_append.mp hd with hd | hd
  · obtain ⟨l, hl, hmk⟩ := List.mem_map.mp hd
    obtain ⟨l2, hl2, hmk2⟩ := List.mem_map.mp hl
    right
    refine ⟨String.mk l2, ?_, ?_⟩
    · have hset : jsMapSet disk snapshotPath (String.mk l2) = d := by
        rw [← hmk, ← hmk2]
      rw [← hset]
      exact jsMapGet_set_self _ _ _
    · exact (List.mem_inits _ _).mp hl2
  · have hd2 : d = jsMapSet disk snapshotPath (jsonRender (snapshotJson (snapshotOf st))) := by
      simpa using hd
    right
    refine ⟨jsonRender (snapshotJson (snapshotOf st)), ?_, List.prefix_refl _⟩
    rw [hd2]
    exact jsMapGet_set_self _ _ _

/-- C7 (amended), witness: after the completed write the snapshot path
holds the complete new serialization (a prefix of itself). -/
theorem C7_amended_witness :
    saveSnapshotOps "/m" "/snap" c7State =
      [FsOp.mkdirRec "/m",
        FsOp.writeFileOp "/snap" (jsonRender (snapshotJson (snapshotOf c7State)))] ∧
    (jsMapGet (jsMapSet [("/snap", "OLD")] "/snap"
        (jsonRender (snapshotJson (snapshotOf c7State)))) "/snap" =
      jsMapGet [("/snap", "OLD")] "/snap" ∨
    ∃ pre : String,
      jsMapGet (jsMapSet [("/snap", "OLD")] "/snap"
        (jsonRender (snapshotJson (snapshotOf c7State)))) "/snap" = some pre ∧
      List.IsPrefix pre.toList (jsonRender (snapshotJson (snapshotOf c7State))).toList) :=
  ⟨(C7_amended "/m" "/snap" c7State [("/snap", "OLD")]).1,
    (C7_amended "/m" "/snap" c7State [("/snap", "OLD")]).2 _ (by decide)⟩

/-! ## C5: `MilvusVectorDatabase.atomicFileUpdate`

The collection is a list of documents; `queryByPath` models the
metadata-filtered query `relativePath == "p"` (the backslash escaping of
the filter expression is the expression-syntax boundary and paths here
contain none).  The backup query requests the output fields `id, vector,
content, relativePath, startLine, endLine, fileExtension` — not
`metadata` — and the rollback reinserts the backup with `metadata: {}`.
A fault schedule says, per attempt, which primitive calls throw; a
throwing call leaves the collection unchanged.  The loop keeps
`backupChunks` across attempts (a throwing query leaves the previous
backup in place), attempts a rollback only when a backup exists and it
is not the last attempt, and returns failure after `maxRetries`
attempts. -/

structure VectorDoc where
  id : String
  vector : List Int
  content : String
  relativePath : String
  startLine : Int
  endLine : Int
  fileExtension : String
  metadata : List (String × String)
  deriving DecidableEq, Repr

structure BackupChunk where
  id : String
  vector : List Int
  content : String
  relativePath : String
  startLine : Int
  endLine : Int
  fileExtension : String
  deriving DecidableEq, Repr

def backupOf (c : VectorDoc) : BackupChunk :=
  ⟨c.id, c.vector, c.content, c.relativePath, c.startLine, c.endLine, c.fileExtension⟩

/-- The rollback document: every backed-up field restored, `metadata`
replaced by the empty object (`fileExtension || ''` maps the empty
string to itself). -/
def rollbackDoc (b : BackupChunk) : VectorDoc :=
  ⟨b.id, b.vector, b.content, b.relativePath, b.startLine, b.endLine, b.fileExtension, []⟩

def queryByPath (col : List VectorDoc) (p : String) : List VectorDoc :=
  col.filter (fun c => c.relativePath == p)

def deleteByIds (col : List VectorDoc) (ids : List String) : List VectorDoc :=
  col.filter (fun c => !(ids.contains c.id))

def insertDocs (col : List VectorDoc) (docs : List VectorDoc) : List VectorDoc :=
  col ++ docs

structure AttemptFaults where
  qF : Bool
  dF : Bool
  iF : Bool
  rF : Bool
  deriving DecidableEq, Repr

structure AtomicResult where
  success : Bool
  chunksProcessed : Nat
  deriving DecidableEq, Repr

/-- The catch block's rollback: reinsert the current backup as rollback
documents when a backup exists and this was not the last attempt
(`r` is the number of attempts still allowed after the current one). -/
def rollbackStep (r : Nat) (backupCur : List BackupChunk) (colCur : List VectorDoc)
    (rF : Bool) : List VectorDoc :=
  if backupCur ≠ [] ∧ r ≠ 0 then
    if rF then colCur else insertDocs colCur (backupCur.map rollbackDoc)
  else colCur

/-- The retry loop of `atomicFileUpdate`, indexed by the number of
attempts left. -/
def atomicLoop (p : String) (newChunks : List VectorDoc) :
    Nat → List AttemptFaults → List BackupChunk → List VectorDoc →
      AtomicResult × List VectorDoc
  | 0, _, _, col => (⟨false, 0⟩, col)
  | r + 1, faults, backupPrev, col =>
    let fa := faults.headD ⟨false, false, false, false⟩
    if fa.qF then
      let colR := rollbackStep r backupPrev col fa.rF
      if r = 0 then (⟨false, 0⟩, colR)
      else atomicLoop p newChunks r faults.tail backupPrev colR
    else
      let backup := (queryByPath col p).map backupOf
      let ids := (backup.map BackupChunk.id).filter (fun i => i ≠ "")
      let deleteInvoked := !backup.isEmpty && !ids.isEmpty
      if fa.dF && deleteInvoked then
        let colR := rollbackStep r backup col fa.rF
        if r = 0 then (⟨false, 0⟩, colR)
        else atomicLoop p newChunks r faults.tail backup colR
      else
        let col2 := if deleteInvoked then deleteByIds col ids else col
        if fa.iF && !newChunks.isEmpty then
          let colR := rollbackStep r backup col2 fa.rF
          if r = 0 then (⟨false, 0⟩, colR)
          else atomicLoop p newChunks r faults.tail backup colR
        else
          let col3 := if !newChunks.isEmpty then insertDocs col2 newChunks else col2
          (⟨true, newChunks.length⟩, col3)

def atomicFileUpdate (p : String) (newChunks : List VectorDoc) (maxRetries : Nat)
    (faults : List AttemptFaults) (col : List VectorDoc) :
    AtomicResult × List VectorDoc :=
  atomicLoop p newChunks maxRetries faults [] col

theorem queryByPath_append (a b : List VectorDoc) (p : String) :
    queryByPath (a ++ b) p = queryByPath a p ++ queryByPath b p :=
  List.filter_append _ _

theorem queryByPath_all (l : List VectorDoc) (p : String)
    (h : ∀ c ∈ l, c.relativePath = p) : queryByPath l p = l := by
  unfold queryByPath
  rw [List.filter_eq_self]
  intro c hc
  simp [h c hc]

theorem query_deleteByIds_nil (col : List VectorDoc) (p : String) (ids : List String)
    (h : ∀ c ∈ col, c.relativePath = p → c.id ∈ ids) :
    queryByPath (deleteByIds col ids) p = [] := by
  unfold queryByPath deleteByIds
  rw [List.filter_eq_nil_iff]
  intro c hc
  simp only [List.mem_filter] at hc
  intro hpath
  have hid : c.id ∈ ids := h c hc.1 (by simpa using hpath)
  have hc2 := hc.2
  rw [Bool.not_eq_true', List.contains_eq_any_beq] at hc2
  have hthis : (ids.any fun x => c.id == x) = true := by
    rw [List.any_eq_true]
    exact ⟨c.id, hid, by simp⟩
  rw [hc2] at hthis
  exact absurd hthis (by simp)

theorem inv_rollbackStep (r : Nat) (bp : List BackupChunk) (col : List VectorDoc)
    (rF : Bool) (p : String)
    (hcol : ∀ c ∈ col, c.relativePath = p → c.id ≠ "")
    (hbp : ∀ b ∈ bp, b.id ≠ "") :
    ∀ c ∈ rollbackStep r bp col rF, c.relativePath = p → c.id ≠ "" := by
  unfold rollbackStep
  split_ifs with h1 h2
  · exact hcol
  · intro c hc hp
    rcases List.mem_append.mp hc with hc | hc
    · exact hcol c hc hp
    · obtain ⟨b, hb, hbc⟩ := List.mem_map.mp hc
      rw [← hbc]
      exact hbp b hb
  · exact hcol

theorem atomicLoop_success (p : String) (newChunks : List VectorDoc)
    (hnew : ∀ c ∈ newChunks, c.relativePath = p) :
    ∀ (r : Nat) (faults : List AttemptFaults) (backupPrev : List BackupChunk)
      (col : List VectorDoc),
      (∀ c ∈ col, c.relativePath = p → c.id ≠ "") →
      (∀ b ∈ backupPrev, b.id ≠ "") →
      (atomicLoop p newChunks r faults backupPrev col).1.success = true →
      queryByPath (atomicLoop p newChunks r faults backupPrev col).2 p = newChunks := by
  intro r
  induction r with
  | zero =>
      intro faults bp col hcol hbp hsucc
      exact absurd hsucc (by simp [atomicLoop])
  | succ r ih =>
      intro faults bp col hcol hbp hsucc
      have hbackup : ∀ b ∈ (queryByPath col p).map backupOf, b.id ≠ "" := by
        intro b hb
        obtain ⟨c, hc, hbc⟩ := List.mem_map.mp hb
        have hcmem := List.mem_filter.mp hc
        rw [← hbc]
        exact hcol c hcmem.1 (by simpa using hcmem.2)
      simp only [atomicLoop] at hsucc ⊢
      by_cases hq : (faults.headD ⟨false, false, false, false⟩).qF = true
      · rw [if_pos hq] at hsucc ⊢
        by_cases hr : r = 0
        · rw [if_pos hr] at hsucc; exact absurd hsucc (by simp)
        · rw [if_neg hr] at hsucc ⊢
          exact ih faults.tail bp _
            (inv_rollbackStep r bp col _ p hcol hbp) hbp hsucc
      · rw [if_neg hq] at hsucc ⊢
        by_cases hd : ((faults.headD ⟨false, false, false, false⟩).dF &&
            (!((queryByPath col p).map backupOf).isEmpty &&
              !((((queryByPath col p).map backupOf).map BackupChunk.id).filter
                (fun i => i ≠ "")).isEmpty)) = true
        · rw [if_pos hd] at hsucc ⊢
          by_cases hr : r = 0
          · rw [if_pos hr] at hsucc; exact absurd hsucc (by simp)
          · rw [if_neg hr] at hsucc ⊢
            exact ih faults.tail _ _
              (inv_rollbackStep r _ col _ p hcol hbackup) hbackup hsucc
        · rw [if_neg hd] at hsucc ⊢
          by_cases hi : ((faults.headD ⟨false, false, false, false⟩).iF &&
              !newChunks.isEmpty) = true
          · rw [if_pos hi] at hsucc ⊢
            by_cases hr : r = 0
            · rw [if_pos hr] at hsucc; exact absurd hsucc (by simp)
            · rw [if_neg hr] at hsucc ⊢
              have hcol2 : ∀ c ∈ (if (!((queryByPath col p).map backupOf).isEmpty &&
                  !((((queryByPath col p).map backupOf).map BackupChunk.id).filter
                    (fun i => i ≠ "")).isEmpty) then
                    deleteByIds col
                      ((((queryByPath col p).map backupOf).map BackupChunk.id).filter
                        (fun i => i ≠ ""))
                  else col), c.relativePath = p → c.id ≠ "" := by
                split_ifs with hdel
                · intro c hc
                  exact hcol c (List.mem_filter.mp hc).1
                · exact hcol
              exact ih faults.tail _ _
                (inv_rollbackStep r _ _ _ p hcol2 hbackup) hbackup hsucc
          · rw [if_neg hi] at hsucc ⊢
            have hq2 : queryByPath (if (!((queryByPath col p).map backupOf).isEmpty &&
                !((((queryByPath col p).map backupOf).map BackupChunk.id).filter
                  (fun i => i ≠ "")).isEmpty) then
                  deleteByIds col
                    ((((queryByPath col p).map backupOf).map BackupChunk.id).filter
                      (fun i => i ≠ ""))
                else col) p = [] := by
              by_cases hbe : (queryByPath col p) = []
              · have : ((queryByPath col p).map backupOf).isEmpty = true := by
                  simp [hbe]
                simp only [this, Bool.not_true, Bool.false_and, if_neg (by simp : ¬ (false = true))]
                exact hbe
              · have hne : ((queryByPath col p).map backupOf).isEmpty = false := by
                  simp [List.isEmpty_iff, hbe]
                have hidsne : (((((queryByPath col p).map backupOf).map BackupChunk.id).filter
                    (fun i => i ≠ ""))).isEmpty = false := by
                  obtain ⟨c0, hc0⟩ := List.exists_mem_of_ne_nil _ hbe
                  have hb0 : backupOf c0 ∈ (queryByPath col p).map backupOf :=
                    List.mem_map_of_mem _ hc0
                  have hid0 : (backupOf c0).id ≠ "" := hbackup _ hb0
                  rw [List.isEmpty_eq_false]
                  intro hnil
                  have : (backupOf c0).id ∈
                      ((((queryByPath col p).map backupOf).map BackupChunk.id).filter
                        (fun i => i ≠ "")) := by
                    rw [List.mem_filter]
                    exact ⟨List.mem_map_of_mem _ hb0, by simpa using hid0⟩
                  rw [hnil] at this
                  exact absurd this (List.not_mem_nil _)
                simp only [hne, hidsne, Bool.not_false, Bool.and_self, if_pos rfl]
                apply query_deleteByIds_nil
                intro c hc hp
                rw [List.mem_filter]
                constructor
                · exact List.mem_map_of_mem _
                    (List.mem_map_of_mem _ (List.mem_filter.mpr ⟨hc, by simp [hp]⟩))
                · simpa using hcol c hc hp
            by_cases hnc : newChunks.isEmpty
            · have hnil : newChunks = [] := List.isEmpty_iff.mp hnc
              rw [if_neg (by simp [hnc])]
              rw [hq2, hnil]
            · rw [if_pos (by simp [hnc])]
              unfold insertDocs
              rw [queryByPath_append, hq2, queryByPath_all newChunks p hnew,
                List.nil_append]

/-- The fault schedule of the rollback scenario: the first attempt fails
at the insert and rolls back successfully; the second (final) attempt
fails at the backup query, and no rollback is attempted on the final
attempt. -/
def c5Faults : List AttemptFaults :=
  [⟨false, false, true, false⟩, ⟨true, false, false, false⟩]

theorem atomicLoop_rollback (p : String) (newChunks : List VectorDoc)
    (col : List VectorDoc) (hne : newChunks ≠ [])
    (hcol : ∀ c ∈ col, c.relativePath = p → c.id ≠ "") :
    (atomicFileUpdate p newChunks 2 c5Faults col).1.success = false ∧
    queryByPath (atomicFileUpdate p newChunks 2 c5Faults col).2 p =
      (queryByPath col p).map (fun c => rollbackDoc (backupOf c)) := by
  have hbackup : ∀ b ∈ (queryByPath col p).map backupOf, b.id ≠ "" := by
    intro b hb
    obtain ⟨c, hc, hbc⟩ := List.mem_map.mp hb
    have hcmem := List.mem_filter.mp hc
    rw [← hbc]
    exact hcol c hcmem.1 (by simpa using hcmem.2)
  have hstep : atomicFileUpdate p newChunks 2 c5Faults col =
      (⟨false, 0⟩,
        rollbackStep 1 ((queryByPath col p).map backupOf)
          (if (!((queryByPath col p).map backupOf).isEmpty &&
              !((((queryByPath col p).map backupOf).map BackupChunk.id).filter
                (fun i => i ≠ "")).isEmpty) then
            deleteByIds col
              ((((queryByPath col p).map backupOf).map BackupChunk.id).filter
                (fun i => i ≠ ""))
          else col) false) := by
    unfold atomicFileUpdate
    simp [atomicLoop, c5Faults, rollbackStep, List.isEmpty_eq_false.mpr hne]
  rw [hstep]
  refine ⟨rfl, ?_⟩
  by_cases hbe : queryByPath col p = []
  · have hbk : ((queryByPath col p).map backupOf) = [] := by simp [hbe]
    simp only [hbk]
    rw [show rollbackStep 1 ([] : List BackupChunk)
        (if (!(([] : List BackupChunk)).isEmpty &&
            !(((([] : List BackupChunk)).map BackupChunk.id).filter
              (fun i => i ≠ "")).isEmpty) then
          deleteByIds col
            (((([] : List BackupChunk)).map BackupChunk.id).filter (fun i => i ≠ ""))
        else col) false = col from by simp [rollbackStep]]
    rw [hbe]
    simp
  · have hne2 : ((queryByPath col p).map backupOf).isEmpty = false := by
      simp [List.isEmpty_iff, hbe]
    have hidsne : (((((queryByPath col p).map backupOf).map BackupChunk.id).filter
        (fun i => i ≠ ""))).isEmpty = false := by
      obtain ⟨c0, hc0⟩ := List.exists_mem_of_ne_nil _ hbe
      have hb0 : backupOf c0 ∈ (queryByPath col p).map backupOf :=
        List.mem_map_of_mem _ hc0
      have hid0 : (backupOf c0).id ≠ "" := hbackup _ hb0
      rw [List.isEmpty_eq_false]
      intro hnil
      have hmem : (backupOf c0).id ∈
          ((((queryByPath col p).map backupOf).map BackupChunk.id).filter
            (fun i => i ≠ "")) := by
        rw [List.mem_filter]
        exact ⟨List.mem_map_of_mem _ hb0, by simpa using hid0⟩
      rw [hnil] at hmem
      exact absurd hmem (List.not_mem_nil _)
    have hq2 : queryByPath (deleteByIds col
        ((((queryByPath col p).map backupOf).map BackupChunk.id).filter
          (fun i => i ≠ ""))) p = [] := by
      apply query_deleteByIds_nil
      intro c hc hp
      rw [List.mem_filter]
      constructor
      · exact List.mem_map_of_mem _
          (List.mem_map_of_mem _ (List.mem_filter.mpr ⟨hc, by simp [hp]⟩))
      · simpa using hcol c hc hp
    rw [if_pos (by rw [hne2, hidsne]; rfl)]
    have hbkne : (queryByPath col p).map backupOf ≠ [] := by
      simp only [ne_eq, List.map_eq_nil_iff]
      exact hbe
    rw [show rollbackStep 1 ((queryByPath col p).map backupOf)
        (deleteByIds col
          ((((queryByPath col p).map backupOf).map BackupChunk.id).filter
            (fun i => i ≠ ""))) false =
        deleteByIds col
          ((((queryByPath col p).map backupOf).map BackupChunk.id).filter
            (fun i => i ≠ "")) ++
          ((queryByPath col p).map backupOf).map rollbackDoc from by
      unfold rollbackStep insertDocs
      rw [if_pos ⟨hbkne, by omega⟩]
      simp]
    rw [queryByPath_append, hq2, List.nil_append, List.map_map]
    apply queryByPath_all
    intro c hc
    obtain ⟨c0, hc0, hcc⟩ := List.mem_map.mp hc
    have hcmem := List.mem_filter.mp hc0
    rw [← hcc]
    show c0.relativePath = p
    simpa using hcmem.2

def c5Pre : VectorDoc := ⟨"x", [1], "print", "a.ts", 1, 2, ".ts", [("language", "ts")]⟩

def c5New : VectorDoc := ⟨"y", [2], "print2", "a.ts", 1, 2, ".ts", [("language", "ts")]⟩

/-- C5: counterexample.  The claim states that after a failing
`atomic_file_update` whose rollback succeeded, querying the path returns
exactly the pre-call chunk set with all fields, metadata included, equal
to their pre-call values.  With one pre-call chunk carrying nonempty
metadata, a first attempt failing at the insert (rollback succeeds) and
a final attempt failing at the query, the query afterwards returns a
chunk with the pre-call id but empty metadata — the rollback reinserts
the backup, which was fetched without the metadata field and rebuilt
with `metadata: {}`. -/
theorem C5_counterexample :
    (atomicFileUpdate "a.ts" [c5New] 2 c5Faults [c5Pre]).1.success = false ∧
    (queryByPath (atomicFileUpdate "a.ts" [c5New] 2 c5Faults [c5Pre]).2 "a.ts").map
      VectorDoc.id = ["x"] ∧
    (queryByPath (atomicFileUpdate "a.ts" [c5New] 2 c5Faults [c5Pre]).2 "a.ts").map
      VectorDoc.metadata = [[]] ∧
    queryByPath (atomicFileUpdate "a.ts" [c5New] 2 c5Faults [c5Pre]).2 "a.ts" ≠
      queryByPath [c5Pre] "a.ts" := by
  refine ⟨?_, ?_, ?_, ?_⟩ <;> decide

/-- C5 (amended): (1) after a successful `atomicFileUpdate(name, p,
chunks)` — under any fault schedule and retry budget — a query on
`relativePath == p` returns exactly `chunks`, provided the new chunks
carry path `p` and the stored chunks at `p` have nonempty ids; (2) after
the failing schedule whose first-attempt rollback succeeded, the query
returns the pre-call chunks with every backed-up field (id, vector,
content, relativePath, startLine, endLine, fileExtension) equal to its
pre-call value but with `metadata` reset to empty, because the backup
omits the metadata field. -/
theorem C5_amended :
    (∀ (maxRetries : Nat) (faults : List AttemptFaults)
        (col newChunks : List VectorDoc) (p : String),
      (∀ c ∈ newChunks, c.relativePath = p) →
      (∀ c ∈ col, c.relativePath = p → c.id ≠ "") →
      (atomicFileUpdate p newChunks maxRetries faults col).1.success = true →
      queryByPath (atomicFileUpdate p newChunks maxRetries faults col).2 p = newChunks) ∧
    (∀ (col newChunks : List VectorDoc) (p : String),
      newChunks ≠ [] →
      (∀ c ∈ col, c.relativePath = p → c.id ≠ "") →
      (atomicFileUpdate p newChunks 2 c5Faults col).1.success = false ∧
      queryByPath (atomicFileUpdate p newChunks 2 c5Faults col).2 p =
        (queryByPath col p).map (fun c => rollbackDoc (backupOf c))) := by
  constructor
  · intro maxRetries faults col newChunks p hnew hcol hsucc
    exact atomicLoop_success p newChunks hnew maxRetries faults [] col hcol
      (fun b hb => absurd hb (List.not_mem_nil b)) hsucc
  · intro col newChunks p hne hcol
    exact atomicLoop_rollback p newChunks col hne hcol

/-- C5 (amended), witness: a fault-free update replaces the stored chunk
with the new one, and the rollback schedule leaves the pre-call chunk
with emptied metadata. -/
theorem C5_amended_witness :
    queryByPath (atomicFileUpdate "a.ts" [c5New] 3 [] [c5Pre]).2 "a.ts" = [c5New] ∧
    ((atomicFileUpdate "a.ts" [c5New] 2 c5Faults [c5Pre]).1.success = false ∧
      queryByPath (atomicFileUpdate "a.ts" [c5New] 2 c5Faults [c5Pre]).2 "a.ts" =
        (queryByPath [c5Pre] "a.ts").map (fun c => rollbackDoc (backupOf c))) :=
  ⟨C5_amended.1 3 [] [c5Pre] [c5New] "a.ts" (by decide) (by decide) (by decide),
    C5_amended.2 [c5Pre] [c5New] "a.ts" (by decide) (by decide)⟩

/-! ## C1: the full scan

Specification-side inventory of the tree: `filesUnderF` lists every
regular file with its path, bytes and mtime (no filtering);
`routeOkFrom` says the walk reaches a path — no ancestor directory
inside the walk matches as an ignored directory and the file itself is
not ignored; `entriesWfB` is tree well-formedness (sibling names are
distinct, as directory listings guarantee). -/

def filesUnderF : Nat → List String → FsEntries → List (List String × List Nat × Nat)
  | 0, _, _ => []
  | _ + 1, _, .nil => []
  | f + 1, relDir, .cons name e rest =>
    (match e with
      | .file bytes mtime => [(relDir ++ [name], (bytes, mtime))]
      | .dir children => filesUnderF f (relDir ++ [name]) children
      | .other => []) ++ filesUnderF f relDir rest

def filesUnder (tree : FsEntries) : List (List String × List Nat × Nat) :=
  filesUnderF (entriesSize tree) [] tree

def entriesHasName : FsEntries → String → Bool
  | .nil, _ => false
  | .cons n _ r, q => n == q || entriesHasName r q

mutual
def entryWfB : FsEntry → Bool
  | .dir cs => entriesWfB cs
  | _ => true
def entriesWfB : FsEntries → Bool
  | .nil => true
  | .cons name e rest => !(entriesHasName rest name) && entryWfB e && entriesWfB rest
end

def routeOkFrom (pats : List String) : List String → List String → Bool
  | _, [] => true
  | relDir, [name] => !shouldIgnore pats (relDir ++ [name]) false
  | relDir, name :: rest =>
    !shouldIgnore pats (relDir ++ [name]) true && routeOkFrom pats (relDir ++ [name]) rest

theorem filesUnderF_shape (f : Nat) :
    ∀ (pre : List String) (es : FsEntries) (q : List String) (b : List Nat) (m : Nat),
      (q, (b, m)) ∈ filesUnderF f pre es →
      ∃ n suf, q = pre ++ n :: suf ∧ entriesHasName es n = true := by
  induction f with
  | zero =>
      intro pre es q b m h
      exact absurd h (List.not_mem_nil _)
  | succ f ih =>
      intro pre es q b m h
      cases es with
      | nil => exact absurd h (List.not_mem_nil _)
      | cons name e rest =>
          simp only [filesUnderF] at h
          rcases List.mem_append.mp h with h | h
          · cases e with
            | file bytes mtime =>
                simp only [List.mem_singleton] at h
                refine ⟨name, [], ?_, ?_⟩
                · have := congrArg Prod.fst h
                  simpa using this
                · simp [entriesHasName]
            | dir children =>
                obtain ⟨n, suf, hq, _⟩ := ih (pre ++ [name]) children q b m h
                refine ⟨name, n :: suf, ?_, ?_⟩
                · rw [hq]; simp
                · simp [entriesHasName]
            | other => exact absurd h (List.not_mem_nil _)
          · obtain ⟨n, suf, hq, hn⟩ := ih pre rest q b m h
            refine ⟨n, suf, hq, ?_⟩
            simp [entriesHasName, hn]

theorem hashFileOptimized_cache_other (sha : List Nat → String)
    (store : List (List String × String)) (cache : List (List String × Nat))
    (rel : List String) (bytes : List Nat) (mtime : Nat) (q : List String)
    (h : q ≠ rel) :
    jsMapGet (hashFileOptimized sha store cache rel bytes mtime).2 q = jsMapGet cache q := by
  simp only [hashFileOptimized]
  split_ifs with hc
  · rfl
  · exact jsMapGet_set_other _ _ _ _ (fun he => h he.symm)

theorem genEntriesF_cache_outside (sha : List Nat → String) (pats : List String)
    (store : List (List String × String)) (f : Nat) :
    ∀ (relDir : List String) (es : FsEntries) (cache : List (List String × Nat))
      (q : List String),
      (∀ b m, (q, (b, m)) ∉ filesUnderF f relDir es) →
      jsMapGet (genEntriesF sha pats store f relDir es cache).2 q = jsMapGet cache q := by
  induction f with
  | zero =>
      intro relDir es cache q _
      rfl
  | succ f ih =>
      intro relDir es cache q hq
      cases es with
      | nil => rfl
      | cons name e rest =>
          have hqrest : ∀ b m, (q, (b, m)) ∉ filesUnderF f relDir rest := by
            intro b m hmem
            exact hq b m (by
              simp only [filesUnderF]
              exact List.mem_append_right _ hmem)
          cases e with
          | file bytes mtime =>
              have hqrel : q ≠ relDir ++ [name] := by
                intro he
                exact hq bytes mtime (by
                  simp only [filesUnderF]
                  exact List.mem_append_left _ (by simp [he]))
              simp only [genEntriesF]
              by_cases hig : shouldIgnore pats (relDir ++ [name]) false = true
              · simp only [hig, if_pos rfl]
                exact ih relDir rest cache q hqrest
              · have hig2 : shouldIgnore pats (relDir ++ [name]) false = false :=
                  Bool.not_eq_true _ |>.mp hig
                simp only [hig2, Bool.not_false, if_pos rfl, Bool.false_eq_true,
                  if_false, if_true]
                rw [ih relDir rest _ q hqrest]
                exact hashFileOptimized_cache_other sha store cache _ bytes mtime q hqrel
          | dir children =>
              have hqchild : ∀ b m, (q, (b, m)) ∉ filesUnderF f (relDir ++ [name]) children := by
                intro b m hmem
                exact hq b m (by
                  simp only [filesUnderF]
                  exact List.mem_append_left _ hmem)
              simp only [genEntriesF]
              by_cases hig : shouldIgnore pats (relDir ++ [name]) true = true
              · simp only [hig, if_pos rfl]
                exact ih relDir rest cache q hqrest
              · have hig2 : shouldIgnore pats (relDir ++ [name]) true = false :=
                  Bool.not_eq_true _ |>.mp hig
                simp only [hig2, Bool.not_false, if_pos rfl, Bool.false_eq_true,
                  if_false, if_true]
                rw [ih relDir rest _ q hqrest]
                exact ih (relDir ++ [name]) children cache q hqchild
          | other =>
              simp only [genEntriesF]
              by_cases hig : shouldIgnore pats (relDir ++ [name]) false = true
              · simp only [hig, if_pos rfl]
                exact ih relDir rest cache q hqrest
              · have hig2 : shouldIgnore pats (relDir ++ [name]) false = false :=
                  Bool.not_eq_true _ |>.mp hig
                simp only [hig2, Bool.false_eq_true, if_false]
                exact ih relDir rest cache q hqrest

theorem filterMapCongr {α β : Type} (f g : α → Option β) :
    ∀ (l : List α), (∀ a ∈ l, f a = g a) → l.filterMap f = l.filterMap g := by
  intro l
  induction l with
  | nil => intro _; rfl
  | cons hd tl ih =>
      intro h
      rw [List.filterMap_cons, List.filterMap_cons, h hd (List.mem_cons_self hd tl),
        ih (fun a ha => h a (List.mem_cons_of_mem hd ha))]

theorem hashFileOptimized_value (sha : List Nat → String)
    (store : List (List String × String)) (cache : List (List String × Nat))
    (rel : List String) (bytes : List Nat) (mtime : Nat)
    (hcons : ∀ h, jsMapGet cache rel = some mtime → jsMapGet store rel = some h →
      h ≠ "" → h = sha (utf8RoundTrip bytes)) :
    (hashFileOptimized sha store cache rel bytes mtime).1 = sha (utf8RoundTrip bytes) := by
  simp only [hashFileOptimized]
  split_ifs with hc
  · obtain ⟨hmt, hne⟩ := hc
    cases hst : jsMapGet store rel with
    | none => rw [hst] at hne; exact absurd rfl hne
    | some h =>
        rw [hst] at hne
        show (some h).getD "" = sha (utf8RoundTrip bytes)
        simp only [Option.getD_some]
        exact hcons h hmt hst (by simpa using hne)
  · rfl

theorem genEntriesF_cons_file (sha : List Nat → String) (pats : List String)
    (store : List (List String × String)) (f : Nat) (relDir : List String)
    (name : String) (bytes : List Nat) (mtime : Nat) (rest : FsEntries)
    (cache : List (List String × Nat)) :
    genEntriesF sha pats store (f + 1) relDir
        (.cons name (.file bytes mtime) rest) cache =
      if shouldIgnore pats (relDir ++ [name]) false then
        genEntriesF sha pats store f relDir rest cache
      else if !(shouldIgnore pats (relDir ++ [name]) false) then
        ((relDir ++ [name],
            (hashFileOptimized sha store cache (relDir ++ [name]) bytes mtime).1) ::
          (genEntriesF sha pats store f relDir rest
            (hashFileOptimized sha store cache (relDir ++ [name]) bytes mtime).2).1,
          (genEntriesF sha pats store f relDir rest
            (hashFileOptimized sha store cache (relDir ++ [name]) bytes mtime).2).2)
      else genEntriesF sha pats store f relDir rest cache := rfl

theorem genEntriesF_cons_dir (sha : List Nat → String) (pats : List String)
    (store : List (List String × String)) (f : Nat) (relDir : List String)
    (name : String) (children rest : FsEntries)
    (cache : List (List String × Nat)) :
    genEntriesF sha pats store (f + 1) relDir
        (.cons name (.dir children) rest) cache =
      if shouldIgnore pats (relDir ++ [name]) true then
        genEntriesF sha pats store f relDir rest cache
      else if !(shouldIgnore pats (relDir ++ [name]) true) then
        ((genEntriesF sha pats store f (relDir ++ [name]) children cache).1 ++
          (genEntriesF sha pats store f relDir rest
            (genEntriesF sha pats store f (relDir ++ [name]) children cache).2).1,
          (genEntriesF sha pats store f relDir rest
            (genEntriesF sha pats store f (relDir ++ [name]) children cache).2).2)
      else genEntriesF sha pats store f relDir rest cache := rfl

theorem genEntriesF_cons_other (sha : List Nat → String) (pats : List String)
    (store : List (List String × String)) (f : Nat) (relDir : List String)
    (name : String) (rest : FsEntries) (cache : List (List String × Nat)) :
    genEntriesF sha pats store (f + 1) relDir (.cons name .other rest) cache =
      if shouldIgnore pats (relDir ++ [name]) false then
        genEntriesF sha pats store f relDir rest cache
      else genEntriesF sha pats store f relDir rest cache := rfl

theorem genEntriesF_scan_eq (sha : List Nat → String) (pats : List String)
    (store : List (List String × String)) (f : Nat) :
    ∀ (relDir : List String) (es : FsEntries) (cache : List (List String × Nat)),
      entriesWfB es = true →
      (∀ q bytes mtime h, (q, (bytes, mtime)) ∈ filesUnderF f relDir es →
        jsMapGet cache q = some mtime → jsMapGet store q = some h → h ≠ "" →
        h = sha (utf8RoundTrip bytes)) →
      (genEntriesF sha pats store f relDir es cache).1 =
        (filesUnderF f relDir es).filterMap (fun e =>
          if routeOkFrom pats relDir (e.1.drop relDir.length) then
            some (e.1, sha (utf8RoundTrip e.2.1))
          else none) := by
  induction f with
  | zero => intro relDir es cache _ _; rfl
  | succ f ih =>
      intro relDir es cache hwf hcons
      cases es with
      | nil => rfl
      | cons name e rest =>
          simp only [entriesWfB, Bool.and_eq_true, Bool.not_eq_true'] at hwf
          obtain ⟨⟨hname, hwfE⟩, hwfRest⟩ := hwf
          have hconsRest : ∀ q bytes mtime h,
              (q, (bytes, mtime)) ∈ filesUnderF f relDir rest →
              jsMapGet cache q = some mtime → jsMapGet store q = some h → h ≠ "" →
              h = sha (utf8RoundTrip bytes) := by
            intro q b m h hmem
            exact hcons q b m h (by
              simp only [filesUnderF]
              exact List.mem_append_right _ hmem)
          have hrestq_ne : ∀ q (b : List Nat) (m : Nat),
              (q, (b, m)) ∈ filesUnderF f relDir rest → q ≠ relDir ++ [name] := by
            intro q b m hmem he
            obtain ⟨n, suf, hq, hn⟩ := filesUnderF_shape f relDir rest q b m hmem
            rw [he] at hq
            have hcanc : [name] = n :: suf := List.append_cancel_left hq
            have hn2 : n = name := by injection hcanc.symm
            rw [hn2] at hn
            rw [hn] at hname
            exact absurd hname (by simp)
          cases e with
          | other =>
              rw [genEntriesF_cons_other, ite_self]
              show _ = ((([] : List (List String × List Nat × Nat)) ++
                filesUnderF f relDir rest).filterMap _)
              rw [List.nil_append]
              exact ih relDir rest cache hwfRest hconsRest
          | file bytes mtime =>
              have hrel_drop : (relDir ++ [name]).drop relDir.length = [name] :=
                List.drop_left _ _
              have hfiles : filesUnderF (f + 1) relDir
                  (.cons name (.file bytes mtime) rest) =
                  [(relDir ++ [name], (bytes, mtime))] ++ filesUnderF f relDir rest := rfl
              rw [genEntriesF_cons_file, hfiles, List.filterMap_append]
              by_cases hig : shouldIgnore pats (relDir ++ [name]) false = true
              · rw [if_pos hig]
                rw [ih relDir rest cache hwfRest hconsRest]
                have hdrophead : ((relDir ++ [name], ((bytes : List Nat), (mtime : Nat))) ::
                    ([] : List (List String × List Nat × Nat))).filterMap (fun e =>
                      if routeOkFrom pats relDir (e.1.drop relDir.length) then
                        some (e.1, sha (utf8RoundTrip e.2.1))
                      else none) = [] := by
                  simp [List.filterMap_cons, hrel_drop, routeOkFrom, hig]
                rw [show ([(relDir ++ [name], ((bytes : List Nat), (mtime : Nat)))] :
                    List (List String × List Nat × Nat)).filterMap (fun e =>
                      if routeOkFrom pats relDir (e.1.drop relDir.length) then
                        some (e.1, sha (utf8RoundTrip e.2.1))
                      else none) = [] from hdrophead]
                rw [List.nil_append]
              · have hig2 := Bool.not_eq_true _ |>.mp hig
                rw [if_neg hig, if_pos (by simp [hig2])]
                have hconsRest2 : ∀ q bytes2 mtime2 h,
                    (q, (bytes2, mtime2)) ∈ filesUnderF f relDir rest →
                    jsMapGet (hashFileOptimized sha store cache (relDir ++ [name])
                      bytes mtime).2 q = some mtime2 →
                    jsMapGet store q = some h → h ≠ "" →
                    h = sha (utf8RoundTrip bytes2) := by
                  intro q b m h hmem hcm hst hne
                  apply hconsRest q b m h hmem ?_ hst hne
                  rw [← hcm]
                  exact (hashFileOptimized_cache_other sha store cache _ bytes mtime q
                    (hrestq_ne q b m hmem)).symm
                have hhead : (hashFileOptimized sha store cache (relDir ++ [name])
                    bytes mtime).1 = sha (utf8RoundTrip bytes) := by
                  apply hashFileOptimized_value
                  intro h hcm hst hne
                  exact hcons (relDir ++ [name]) bytes mtime h (by
                    rw [hfiles]
                    exact List.mem_append_left _ (by simp)) hcm hst hne
                show (relDir ++ [name],
                    (hashFileOptimized sha store cache (relDir ++ [name]) bytes mtime).1) ::
                    (genEntriesF sha pats store f relDir rest
                      (hashFileOptimized sha store cache (relDir ++ [name]) bytes mtime).2).1 = _
                rw [ih relDir rest _ hwfRest hconsRest2, hhead]
                simp [List.filterMap_cons, hrel_drop, routeOkFrom, hig2]
          | dir children =>
              have hfiles : filesUnderF (f + 1) relDir
                  (.cons name (.dir children) rest) =
                  filesUnderF f (relDir ++ [name]) children ++
                    filesUnderF f relDir rest := rfl
              have hchild_mem : ∀ q (b : List Nat) (m : Nat),
                  (q, (b, m)) ∈ filesUnderF f (relDir ++ [name]) children →
                  ∃ n suf, q = relDir ++ name :: n :: suf := by
                intro q b m hmem
                obtain ⟨n, suf, hq, _⟩ :=
                  filesUnderF_shape f (relDir ++ [name]) children q b m hmem
                exact ⟨n, suf, by rw [hq]; simp⟩
              have hconsChild : ∀ q bytes mtime h,
                  (q, (bytes, mtime)) ∈ filesUnderF f (relDir ++ [name]) children →
                  jsMapGet cache q = some mtime → jsMapGet store q = some h → h ≠ "" →
                  h = sha (utf8RoundTrip bytes) := by
                intro q b m h hmem
                exact hcons q b m h (by
                  rw [hfiles]
                  exact List.mem_append_left _ hmem)
              rw [genEntriesF_cons_dir, hfiles, List.filterMap_append]
              by_cases hig : shouldIgnore pats (relDir ++ [name]) true = true
              · rw [if_pos hig]
                rw [ih relDir rest cache hwfRest hconsRest]
                have hchildnil : (filesUnderF f (relDir ++ [name]) children).filterMap
                    (fun e =>
                      if routeOkFrom pats relDir (e.1.drop relDir.length) then
                        some (e.1, sha (utf8RoundTrip e.2.1))
                      else none) = [] := by
                  rw [List.filterMap_eq_nil_iff]
                  intro a ha
                  obtain ⟨n, suf, hq⟩ := hchild_mem a.1 a.2.1 a.2.2 (by
                    obtain ⟨a1, b1, m1⟩ := a
                    exact ha)
                  have hdrop : a.1.drop relDir.length = name :: n :: suf := by
                    rw [hq]
                    exact List.drop_left _ _
                  rw [hdrop]
                  simp [routeOkFrom, hig]
                rw [hchildnil, List.nil_append]
              · have hig2 := Bool.not_eq_true _ |>.mp hig
                rw [if_neg hig, if_pos (by simp [hig2])]
                have hrestq_notchild : ∀ q (b : List Nat) (m : Nat),
                    (q, (b, m)) ∈ filesUnderF f relDir rest →
                    ∀ (b2 : List Nat) (m2 : Nat),
                      (q, (b2, m2)) ∉ filesUnderF f (relDir ++ [name]) children := by
                  intro q b m hmem b2 m2 hmem2
                  obtain ⟨n, suf, hq, hn⟩ := filesUnderF_shape f relDir rest q b m hmem
                  obtain ⟨n2, suf2, hq2⟩ := hchild_mem q b2 m2 hmem2
                  rw [hq] at hq2
                  have hcanc : n :: suf = name :: n2 :: suf2 := List.append_cancel_left hq2
                  have hn2 : n = name := by injection hcanc
                  rw [hn2] at hn
                  rw [hn] at hname
                  exact absurd hname (by simp)
                have hconsRest3 : ∀ q bytes mtime h,
                    (q, (bytes, mtime)) ∈ filesUnderF f relDir rest →
                    jsMapGet (genEntriesF sha pats store f (relDir ++ [name]) children
                      cache).2 q = some mtime →
                    jsMapGet store q = some h → h ≠ "" →
                    h = sha (utf8RoundTrip bytes) := by
                  intro q b m h hmem hcm hst hne
                  apply hconsRest q b m h hmem ?_ hst hne
                  rw [← hcm]
                  exact (genEntriesF_cache_outside sha pats store f (relDir ++ [name])
                    children cache q (hrestq_notchild q b m hmem)).symm
                show (genEntriesF sha pats store f (relDir ++ [name]) children cache).1 ++
                    (genEntriesF sha pats store f relDir rest
                      (genEntriesF sha pats store f (relDir ++ [name]) children cache).2).1 = _
                rw [ih relDir rest _ hwfRest hconsRest3,
                  ih (relDir ++ [name]) children cache (by
                    simpa [entryWfB] using hwfE) hconsChild]
                congr 1
                apply filterMapCongr
                intro a ha
                obtain ⟨n, suf, hq⟩ := hchild_mem a.1 a.2.1 a.2.2 (by
                  obtain ⟨a1, b1, m1⟩ := a
                  exact ha)
                have hdrop1 : a.1.drop (relDir ++ [name]).length = n :: suf := by
                  rw [hq]
                  rw [show relDir ++ name :: n :: suf =
                    (relDir ++ [name]) ++ (n :: suf) from by simp]
                  exact List.drop_left _ _
                have hdrop2 : a.1.drop relDir.length = name :: n :: suf := by
                  rw [hq]
                  exact List.drop_left _ _
                rw [hdrop1, hdrop2]
                simp [routeOkFrom, hig2]

def c1Tree : FsEntries := FsEntries.cons "f.bin" (FsEntry.file [0xFF] 1) FsEntries.nil

/-- C1: counterexample.  The claim states the stored hash is the SHA-256
of the raw bytes for arbitrary byte content.  For a file whose single
byte is `0xFF` (not valid UTF-8), the code reads with `utf-8` decoding,
so it hashes the replacement-character bytes `EF BF BD` instead of the
raw byte: the stored hash is the digest of the re-encoded content, which
differs from the digest of the raw bytes. -/
theorem C1_counterexample :
    jsMapGet (generateFileHashes shaDemo [] [] c1Tree []).1 ["f.bin"] =
      some (shaDemo (utf8RoundTrip [0xFF])) ∧
    shaDemo (utf8RoundTrip [0xFF]) ≠ shaDemo [0xFF] := by
  constructor
  · rfl
  · decide

/-- C1 (amended): the full scan produces exactly one entry per regular
file that the walk reaches — the file is not ignored and no ancestor
directory inside the root matches as an ignored directory — and the
stored hash is the SHA-256 of the UTF-8 re-encoding of the file's bytes
decoded as UTF-8 (equal to the raw-byte digest for valid-UTF-8 files).
No other paths appear and directories are never hashed (only `file`
entries contribute).  The hypotheses: directory listings carry distinct
names, and the mtime cache is consistent (a cached mtime equal to the
file's current mtime with a nonempty stored hash implies that hash is
the current content's). -/
theorem C1_amended (sha : List Nat → String) (pats : List String)
    (store : List (List String × String)) (cache : List (List String × Nat))
    (tree : FsEntries) (hwf : entriesWfB tree = true)
    (hcons : ∀ q bytes mtime h, (q, (bytes, mtime)) ∈ filesUnder tree →
      jsMapGet cache q = some mtime → jsMapGet store q = some h → h ≠ "" →
      h = sha (utf8RoundTrip bytes)) :
    (generateFileHashes sha pats store tree cache).1 =
      (filesUnder tree).filterMap (fun e =>
        if routeOkFrom pats [] e.1 then some (e.1, sha (utf8RoundTrip e.2.1))
        else none) := by
  have hmain := genEntriesF_scan_eq sha pats store (entriesSize tree) [] tree cache hwf hcons
  unfold generateFileHashes filesUnder
  exact hmain

/-- C1 (amended), witness: a one-file tree with empty caches scans to
exactly that file with the round-tripped hash. -/
theorem C1_amended_witness :
    (generateFileHashes shaDemo [] [] c1Tree []).1 =
      (filesUnder c1Tree).filterMap (fun e =>
        if routeOkFrom [] [] e.1 then some (e.1, shaDemo (utf8RoundTrip e.2.1))
        else none) :=
  C1_amended shaDemo [] [] [] c1Tree (by decide)
    (fun q bytes mtime h _ hcm _ _ => absurd hcm (by simp [jsMapGet]))
